import Mathlib

/-!
Shallow embedding of gdb/minsyms.c (minimal symbol table support).

Conventions of the embedding:
* `CORE_ADDR` (an unsigned target address) is modelled as `Nat`; the file only
  compares addresses, so no wrap-around arithmetic occurs.
* C strings (`char *`) that may be NULL are modelled as `Option String`;
  the NULL pointer is `none`.
* The per-objfile minimal symbol array is modelled as a `List MinimalSymbol`
  together with the published `minimal_symbol_count`; a NULL `msymbols`
  pointer is `none`.
* `enum minimal_symbol_type` and the language tags come from symtab.h /
  defs.h (declarations only; their uses are all in minsyms.c).
-/

inductive MinimalSymbolType where
  | mst_unknown
  | mst_text
  | mst_data
  | mst_bss
  | mst_abs
  | mst_file_text
  | mst_file_data
  | mst_file_bss
  | mst_solib_trampoline
deriving DecidableEq, Repr

inductive SourceLanguage where
  | language_unknown
  | language_auto
  | language_cplus
deriving DecidableEq, Repr

open MinimalSymbolType SourceLanguage

/-- One `struct minimal_symbol`.  `sect` is the C field `SYMBOL_SECTION`
(`section` is reserved in Lean).  `SYMBOL_INIT_LANGUAGE_SPECIFIC` sets the
language tag and clears the demangled name, so those two fields together
model the language-specific part of the struct. -/
structure MinimalSymbol where
  name : Option String
  address : Nat
  mstype : MinimalSymbolType
  info : Option String
  sect : Int
  lang : SourceLanguage
  demangled : Option String
deriving DecidableEq, Repr

/-- Head character of a string (`name[0]`), `none` for the empty string. -/
def strHead? (s : String) : Option Char := s.data.head?

/-- Drop the first character of a string (`name + 1`). -/
def strTail (s : String) : String := String.mk s.data.tail

/-- `STREQN (s, p, p.length)`: the first `p.length` characters of `s` equal
`p`.  strncmp stops at a NUL, so a shorter `s` compares unequal, which is
exactly list-prefix. -/
def strStartsWith (p s : String) : Bool := p.data.isPrefixOf s.data

/-- Default expansion of the GCC_COMPILED_FLAG_SYMBOL marker.
Modelled from the spec: the definition lives in symtab.h (not under src/);
it names the compiler-generated tag symbol dropped by the append filter. -/
def GCC_COMPILED_FLAG_SYMBOL : String := "gcc_compiled."

/-- Default expansion of the GCC2_COMPILED_FLAG_SYMBOL marker.
Modelled from the spec: the definition lives in symtab.h (not under src/). -/
def GCC2_COMPILED_FLAG_SYMBOL : String := "gcc2_compiled."

/-- `#define BUNCH_SIZE 127` -/
def BUNCH_SIZE : Nat := 127

/-- The static collection state of minsyms.c: the chain `msym_bunch`
(most recently allocated bunch first, exactly as the linked list is built),
`msym_bunch_index` (filled slots of the head bunch) and `msym_count`.
Each inner list holds the filled slots of one bunch in slot order. -/
structure MsymCollection where
  msym_bunch : List (List MinimalSymbol)
  msym_bunch_index : Nat
  msym_count : Nat
deriving DecidableEq, Repr

/-- `init_minimal_symbol_collection`: presetting `msym_bunch_index` to
BUNCH_SIZE makes the first record allocate the first bunch. -/
def init_minimal_symbol_collection : MsymCollection :=
  { msym_bunch := [], msym_bunch_index := BUNCH_SIZE, msym_count := 0 }

/-- An objfile as far as minsyms.c sees one: the published table, the
published count, and `bfd_get_symbol_leading_char` of its bfd. -/
structure Objfile where
  msymbols : Option (List MinimalSymbol)
  minimal_symbol_count : Nat
  leading_char : Char
deriving DecidableEq, Repr

/-- `tempstring` computation of the append filter: skip the leading symbol
character if the name starts with it. -/
def stripLeadingChar (leading_char : Char) (name : String) : String :=
  if strHead? name = some leading_char then strTail name else name

/-- The early-return condition of `prim_record_minimal_symbol_and_info` for
`mst_file_text` records: the exact-name gcc marker test (note: performed on
the unstripped name, guarded by `name[0] == 'g'`), or the 14-character
`__gnu_compiled` test on the lead-char-stripped name. -/
def msym_filter_drops (leading_char : Char) (name : String) : Prop :=
  (strHead? name = some 'g' ∧
    (name = GCC_COMPILED_FLAG_SYMBOL ∨ name = GCC2_COMPILED_FLAG_SYMBOL)) ∨
  strStartsWith "__gnu_compiled" (stripLeadingChar leading_char name) = true

instance (c : Char) (n : String) : Decidable (msym_filter_drops c n) := by
  unfold msym_filter_drops; infer_instance

/-- `prim_record_minimal_symbol_and_info`.  Returns the new collection state
and the freshly stored record (`none` when the record was filtered out).
The bunch allocation: when the head bunch is full a fresh bunch is linked in
front of the chain.  The `[] => [[msymbol]]` arm is unreachable from
`init_minimal_symbol_collection` (the index preset forces an allocation
first) and only totalises the definition. -/
def prim_record_minimal_symbol_and_info (name : String) (address : Nat)
    (ms_type : MinimalSymbolType) (info : Option String) (sect : Int)
    (leading_char : Char) (st : MsymCollection) :
    MsymCollection × Option MinimalSymbol :=
  if ms_type = mst_file_text ∧ msym_filter_drops leading_char name then
    (st, none)
  else
    let st1 :=
      if st.msym_bunch_index = BUNCH_SIZE then
        { st with msym_bunch := [] :: st.msym_bunch, msym_bunch_index := 0 }
      else st
    let msymbol : MinimalSymbol :=
      { name := some name, address := address, mstype := ms_type,
        info := info, sect := sect, lang := language_unknown,
        demangled := none }
    let bunches :=
      match st1.msym_bunch with
      | [] => [[msymbol]]
      | b :: rest => (b ++ [msymbol]) :: rest
    ({ msym_bunch := bunches, msym_bunch_index := st1.msym_bunch_index + 1,
       msym_count := st1.msym_count + 1 }, some msymbol)

/-- `compare_minimal_symbols`: signed three-way comparison of the (unsigned)
addresses. -/
def compare_minimal_symbols (fn1 fn2 : MinimalSymbol) : Int :=
  if fn1.address < fn2.address then -1
  else if fn1.address > fn2.address then 1
  else 0

/-- The (non-strict) order induced by `compare_minimal_symbols`. -/
def msym_addr_le (a b : MinimalSymbol) : Prop :=
  compare_minimal_symbols a b ≤ 0

instance : DecidableRel msym_addr_le := fun a b =>
  inferInstanceAs (Decidable (compare_minimal_symbols a b ≤ 0))

/-- The qsort call `qsort (msymbols, mcount, ..., compare_minimal_symbols)`.
qsort may produce any permutation ordered by the comparator; the embedding
fixes the stable insertion sort as its deterministic model (ties keep their
input order, one of the outcomes qsort is allowed to produce). -/
def sort_minimal_symbols (l : List MinimalSymbol) : List MinimalSymbol :=
  List.insertionSort msym_addr_le l

/-- The duplicate merge of `compact_minimal_symbols`: the entry being left
alone is `copyfrom + 1`; when its type is `mst_unknown` it inherits the type
of the entry being compacted out. -/
def compact_step (copyfrom next : MinimalSymbol) : MinimalSymbol :=
  if next.mstype = mst_unknown then { next with mstype := copyfrom.mstype }
  else next

/-- The copyfrom/copyto walk of `compact_minimal_symbols`, with `copyfrom`
holding the entry the C pointer currently designates.  A duplicate test
compares the addresses and the names (`STREQ` on two non-NULL names in every
reachable call; `Option` equality models it).  On a duplicate, `copyfrom` is
advanced without being copied out, so the earlier entry of the pair is
dropped; otherwise `copyfrom` is copied to `copyto`.  The `[copyfrom]` base
case is the explicit copy of the last entry after the loop. -/
def compact_go (copyfrom : MinimalSymbol) :
    List MinimalSymbol → List MinimalSymbol
  | [] => [copyfrom]
  | y :: rest =>
    if copyfrom.address = y.address ∧ copyfrom.name = y.name then
      compact_go (compact_step copyfrom y) rest
    else
      copyfrom :: compact_go y rest

/-- `compact_minimal_symbols` on the table contents (the C function returns
the new count; here the compacted list is returned, its length being that
count).  `mcount = 0` leaves the table empty. -/
def compact_minimal_symbols : List MinimalSymbol → List MinimalSymbol
  | [] => []
  | x :: rest => compact_go x rest

/-- Modelled from the spec: `SYMBOL_INIT_DEMANGLED_NAME` (symtab.h, not
under src/).  For a record still tagged `language_auto` the external
demangler runs once: success records `language_cplus` and caches the
demangled form, failure records `language_unknown` permanently.  Records
with any other tag are untouched. -/
def symbol_init_demangled_name (demangle : String → Option String)
    (s : MinimalSymbol) : MinimalSymbol :=
  if s.lang = language_auto then
    match s.name with
    | some nm =>
      match demangle nm with
      | some d => { s with lang := language_cplus, demangled := some d }
      | none => { s with lang := language_unknown, demangled := none }
    | none => { s with lang := language_unknown, demangled := none }
  else s

/-- The existing published entries of an objfile, as copied by the memcpy in
`install_minimal_symbols`: `minimal_symbol_count` entries (the terminator is
not copied). -/
def existing_msymbols (objfile : Objfile) : List MinimalSymbol :=
  match objfile.msymbols with
  | none => []
  | some tbl => tbl.take objfile.minimal_symbol_count

/-- The per-record transfer of the bunch-copy loop in
`install_minimal_symbols`: the language tag is forced to `language_auto`,
and a name starting with the leading symbol character loses that
character. -/
def install_transfer (leading_char : Char) (s : MinimalSymbol) :
    MinimalSymbol :=
  let s1 := { s with lang := language_auto }
  match s1.name with
  | some nm =>
    if strHead? nm = some leading_char then { s1 with name := some (strTail nm) }
    else s1
  | none => s1

/-- The merged array handed to qsort by `install_minimal_symbols`: the
existing entries in their original slots, then the bunch chain walked from
`msym_bunch` (most recently allocated bunch first), each bunch in slot
order, every copied record transferred by `install_transfer`. -/
def install_merged (objfile : Objfile) (buf : MsymCollection) :
    List MinimalSymbol :=
  existing_msymbols objfile ++
    (buf.msym_bunch.flatten.map (install_transfer objfile.leading_char))

/-- The "null symbol" terminator written after the compacted table.  The C
code zeroes the name, address and info, sets `mst_unknown` and
`language_unknown`; it leaves `SYMBOL_SECTION` unset (the model fixes it
to 0). -/
def null_symbol : MinimalSymbol :=
  { name := none, address := 0, mstype := mst_unknown, info := none,
    sect := 0, lang := language_unknown, demangled := none }

/-- The `mcount` records published by an install: merged, sorted, compacted,
then rewritten by the demangling pass (which runs over exactly the `mcount`
published records, after the table pointer is published). -/
def install_table (objfile : Objfile) (buf : MsymCollection)
    (demangle : String → Option String) : List MinimalSymbol :=
  (compact_minimal_symbols
      (sort_minimal_symbols (install_merged objfile buf))).map
    (symbol_init_demangled_name demangle)

/-- `install_minimal_symbols`: with a non-empty collection, merge, sort,
compact, terminate with the null symbol, publish count and table, then run
the demangling pass over the `mcount` published records.  With an empty
collection nothing happens. -/
def install_minimal_symbols (objfile : Objfile) (buf : MsymCollection)
    (demangle : String → Option String) : Objfile :=
  if buf.msym_count > 0 then
    { msymbols := some (install_table objfile buf demangle ++ [null_symbol]),
      minimal_symbol_count := (install_table objfile buf demangle).length,
      leading_char := objfile.leading_char }
  else objfile

/-- Array indexing `msymbol[i]`.  All reachable reads are in bounds; the
default only totalises the function. -/
def symAt (tbl : List MinimalSymbol) (i : Nat) : MinimalSymbol :=
  tbl.getD i null_symbol

/-- `SYMBOL_VALUE_ADDRESS (&msymbol[i])`. -/
def addrAt (tbl : List MinimalSymbol) (i : Nat) : Nat := (symAt tbl i).address

/-- The interval-shrinking search loop of `lookup_minimal_symbol_by_pc`.
The loop runs while `addr[hi] > pc`; each iteration strictly shrinks
`hi - lo` whenever `addr[lo] ≤ pc` holds (which the caller establishes), so
fuel `minimal_symbol_count` always suffices; the fuel argument only
totalises the C while-loop. -/
def msym_search (tbl : List MinimalSymbol) (pc : Nat) :
    Nat → Nat → Nat → Nat
  | 0, _, hi => hi
  | fuel + 1, lo, hi =>
    if addrAt tbl hi > pc then
      let mid := (lo + hi) / 2
      if addrAt tbl mid ≥ pc ∨ lo = mid then msym_search tbl pc fuel lo mid
      else msym_search tbl pc fuel mid hi
    else hi

/-- The backward walk `while (hi >= 0 && msymbol[hi].type == mst_abs) --hi;`
followed by the `hi >= 0` test: `none` models the walk running off the
front of the table. -/
def msym_skip_abs (tbl : List MinimalSymbol) : Nat → Option Nat
  | 0 => if (symAt tbl 0).mstype = mst_abs then none else some 0
  | j + 1 =>
    if (symAt tbl (j + 1)).mstype = mst_abs then msym_skip_abs tbl j
    else some (j + 1)

/-- The loop body of `lookup_minimal_symbol_by_pc` for one objfile: a NULL
table contributes nothing; a pc below the first address contributes nothing;
otherwise the binary search result, walked back across `mst_abs` records, is
the candidate (or nothing when the walk leaves the table). -/
def pc_candidate (objfile : Objfile) (pc : Nat) : Option MinimalSymbol :=
  match objfile.msymbols with
  | none => none
  | some tbl =>
    if pc ≥ addrAt tbl 0 then
      match msym_skip_abs tbl
          (msym_search tbl pc objfile.minimal_symbol_count 0
            (objfile.minimal_symbol_count - 1)) with
      | none => none
      | some i => some (symAt tbl i)
    else none

/-- `lookup_minimal_symbol_by_pc`: scan all objfiles, keeping the candidate
with the strictly greatest address (`best == NULL || addr best < addr cand`,
so the first-found candidate wins an exact address tie). -/
def lookup_minimal_symbol_by_pc (object_files : List Objfile) (pc : Nat) :
    Option MinimalSymbol :=
  object_files.foldl
    (fun best m =>
      match pc_candidate m pc with
      | none => best
      | some c =>
        match best with
        | none => some c
        | some b => if b.address < c.address then some c else some b)
    none

/-- The three running results of `lookup_minimal_symbol`. -/
structure LookupNameAcc where
  found_symbol : Option MinimalSymbol
  found_file_symbol : Option MinimalSymbol
  trampoline_symbol : Option MinimalSymbol
deriving DecidableEq, Repr

/-- The switch on `MSYMBOL_TYPE` for a name match: file-scoped kinds
overwrite the file slot (the build without per-symbol source files keeps the
latest match unconditionally), a trampoline fills its slot only when empty,
everything else (the default arm) becomes the found symbol and ends the
scan. -/
def lookup_switch (msymbol : MinimalSymbol) (acc : LookupNameAcc) :
    LookupNameAcc :=
  match msymbol.mstype with
  | mst_file_text | mst_file_data | mst_file_bss =>
    { acc with found_file_symbol := some msymbol }
  | mst_solib_trampoline =>
    if acc.trampoline_symbol = none then
      { acc with trampoline_symbol := some msymbol }
    else acc
  | _ => { acc with found_symbol := some msymbol }

/-- The inner loop of `lookup_minimal_symbol`: walk the table until a NULL
name (the terminator) or until `found_symbol` is set; each
`SYMBOL_MATCHES_NAME` hit runs the switch. -/
def lookup_scan_msymbols (name : String) :
    List MinimalSymbol → LookupNameAcc → LookupNameAcc
  | [], acc => acc
  | msymbol :: rest, acc =>
    match msymbol.name with
    | none => acc
    | some nm =>
      if acc.found_symbol ≠ none then acc
      else
        lookup_scan_msymbols name rest
          (if nm = name then lookup_switch msymbol acc else acc)

/-- The outer loop of `lookup_minimal_symbol`: objfiles in registry order,
stopping once `found_symbol` is set; `objf` (a registry position standing in
for the C pointer comparison) restricts the scan to one objfile. -/
def lookup_objfile_loop (name : String) (objf : Option Nat) :
    Nat → List Objfile → LookupNameAcc → LookupNameAcc
  | _, [], acc => acc
  | idx, objfile :: rest, acc =>
    if acc.found_symbol ≠ none then acc
    else
      lookup_objfile_loop name objf (idx + 1) rest
        (if objf = none ∨ objf = some idx then
          match objfile.msymbols with
          | none => acc
          | some tbl => lookup_scan_msymbols name tbl acc
        else acc)

/-- `lookup_minimal_symbol`.  `sfile` is accepted and ignored: the build
without SOFUN_ADDRESS_MAYBE_MISSING has no per-symbol source file data (the
embedded build).  Precedence on return: found, then file-local, then
trampoline, then NULL. -/
def lookup_minimal_symbol (object_files : List Objfile) (name : String)
    (_sfile : Option String) (objf : Option Nat) : Option MinimalSymbol :=
  let acc := lookup_objfile_loop name objf 0 object_files
    { found_symbol := none, found_file_symbol := none,
      trampoline_symbol := none }
  match acc.found_symbol with
  | some s => some s
  | none =>
    match acc.found_file_symbol with
    | some s => some s
    | none => acc.trampoline_symbol

/-- `lookup_solib_trampoline_symbol_by_pc`. -/
def lookup_solib_trampoline_symbol_by_pc (object_files : List Objfile)
    (pc : Nat) : Option MinimalSymbol :=
  match lookup_minimal_symbol_by_pc object_files pc with
  | some msymbol =>
    if msymbol.mstype = mst_solib_trampoline then some msymbol else none
  | none => none

/-- Modelled from the spec: the ALL_MSYMBOLS iteration (objfiles.h, not
under src/) visits every objfile in registry order and, inside each, every
record of its table in index order until the NULL-name terminator. -/
def all_msymbols_scan (object_files : List Objfile) : List MinimalSymbol :=
  object_files.flatMap
    (fun m => (m.msymbols.getD []).takeWhile (fun s => s.name.isSome))

/-- `find_solib_trampoline_target`: returns the address of the first
`mst_text` record named like the trampoline, 0 when there is no trampoline
at `pc` or no such record. -/
def find_solib_trampoline_target (object_files : List Objfile) (pc : Nat) :
    Nat :=
  match lookup_solib_trampoline_symbol_by_pc object_files pc with
  | some tsymbol =>
    match (all_msymbols_scan object_files).find?
        (fun s => decide (s.mstype = mst_text ∧ s.name = tsymbol.name)) with
    | some s => s.address
    | none => 0
  | none => 0

/-! ## Specification-side definitions

The following definitions transcribe the wording of the specification (not
the C code); the theorems below relate them to the embedded code. -/

/-- The kinds handled by the `default` arm of the name-lookup switch: the
"global" bucket of the spec (Text/Data/Bss/Absolute/Unknown — anything
neither file-scoped nor a trampoline). -/
def is_global_kind : MinimalSymbolType → Bool
  | mst_file_text | mst_file_data | mst_file_bss | mst_solib_trampoline => false
  | _ => true

/-- The file-scoped kinds (the spec's FileLocal bucket). -/
def is_file_kind : MinimalSymbolType → Bool
  | mst_file_text | mst_file_data | mst_file_bss => true
  | _ => false

/-- A record matching the queried name in the global bucket. -/
def global_match (name : String) (s : MinimalSymbol) : Bool :=
  decide (s.name = some name) && is_global_kind s.mstype

/-- A record matching the queried name in the file-local bucket. -/
def file_match (name : String) (s : MinimalSymbol) : Bool :=
  decide (s.name = some name) && is_file_kind s.mstype

/-- A record matching the queried name in the trampoline bucket. -/
def tramp_match (name : String) (s : MinimalSymbol) : Bool :=
  decide (s.name = some name) && decide (s.mstype = mst_solib_trampoline)

/-- Name-lookup result as the spec words it: the first global match in scan
order if any (the scan stops there), else the last file-local match, else
the first trampoline match, else none.  Scan order is registry order, then
in-module order up to the NULL-name terminator. -/
def lookup_name_spec (object_files : List Objfile) (name : String) :
    Option MinimalSymbol :=
  let seq := all_msymbols_scan object_files
  match seq.find? (global_match name) with
  | some g => some g
  | none =>
    match (seq.filter (file_match name)).getLast? with
    | some f => some f
    | none => seq.find? (tramp_match name)

/-- The cross-module reduction as the spec words it: keep the candidate with
the greatest address; the comparison is strict, so the first-found candidate
wins an exact address tie; none when no module contributes. -/
def best_by_address (cands : List MinimalSymbol) : Option MinimalSymbol :=
  cands.foldl
    (fun best c =>
      match best with
      | none => some c
      | some b => if b.address < c.address then some c else some b)
    none

/-- Trampoline resolution as the spec words it, with an `Option` result:
if `lookup_by_pc` yields a SolibTrampoline symbol, the address of the first
`mst_text` record with exactly that name over the whole scan; none
otherwise. -/
def resolve_trampoline_target_spec (object_files : List Objfile) (pc : Nat) :
    Option Nat :=
  match lookup_solib_trampoline_symbol_by_pc object_files pc with
  | some tsymbol =>
    ((all_msymbols_scan object_files).find?
        (fun s => decide (s.mstype = mst_text ∧ s.name = tsymbol.name))).map
      (fun s => s.address)
  | none => none

/-- Addresses non-decreasing over the first `count` slots of a table. -/
def AddrSortedN (tbl : List MinimalSymbol) (count : Nat) : Prop :=
  ∀ i, i + 1 < count → addrAt tbl i ≤ addrAt tbl (i + 1)

instance (tbl : List MinimalSymbol) (count : Nat) :
    Decidable (AddrSortedN tbl count) :=
  decidable_of_iff
    (∀ i < count, i + 1 < count → addrAt tbl i ≤ addrAt tbl (i + 1))
    (by constructor
        · intro h i hi; exact h i (by omega) hi
        · intro h i _ hi; exact h i hi)

/-! ## Test fixtures (concrete inputs used by witnesses and
counterexamples) -/

/-- The argument tuple of one `prim_record_minimal_symbol_and_info` call. -/
structure RecordedArgs where
  name : String
  address : Nat
  ms_type : MinimalSymbolType
  info : Option String
  sect : Int
deriving DecidableEq, Repr

/-- The minimal symbol such a call stores (language tag initialised to
`language_unknown`, no demangled name). -/
def mkRecorded (r : RecordedArgs) : MinimalSymbol :=
  { name := some r.name, address := r.address, mstype := r.ms_type,
    info := r.info, sect := r.sect, lang := language_unknown,
    demangled := none }

/-- Run a whole sequence of `prim_record_minimal_symbol_and_info` calls from
a fresh collection. -/
def record_list (leading_char : Char) (rs : List RecordedArgs) :
    MsymCollection :=
  rs.foldl
    (fun st r =>
      (prim_record_minimal_symbol_and_info r.name r.address r.ms_type r.info
        r.sect leading_char st).1)
    init_minimal_symbol_collection

/-- A demangler that always fails. -/
def demangle_none : String → Option String := fun _ => none

/-- Three records at one address whose names interleave as a, b, a: the
stable sort keeps this order, so the two "a" records are never adjacent. -/
def buf_dup3 : MsymCollection :=
  record_list '%'
    [{ name := "a", address := 5, ms_type := mst_text, info := none, sect := 0 },
     { name := "b", address := 5, ms_type := mst_data, info := none, sect := 0 },
     { name := "a", address := 5, ms_type := mst_bss, info := none, sect := 0 }]

/-- 128 records: one more than BUNCH_SIZE, so the collection holds two
bunches and the install copy walks the second-allocated bunch first. -/
def recs_bunch : List RecordedArgs :=
  (List.range 128).map
    (fun i => { name := "a", address := i, ms_type := mst_data, info := none,
                sect := 0 })

/-- An objfile with no minimal symbols yet. -/
def empty_objfile : Objfile :=
  { msymbols := none, minimal_symbol_count := 0, leading_char := '%' }

/-- Publish a table the way install does, for fixture use: the listed
records followed by the terminator, counted without the terminator. -/
def table_objfile (l : List MinimalSymbol) : Objfile :=
  { msymbols := some (l ++ [null_symbol]), minimal_symbol_count := l.length,
    leading_char := '%' }

/-- Fixture record: a Text symbol "a" at address 5. -/
def rec_a_text : RecordedArgs := ⟨"a", 5, mst_text, none, 0⟩

/-- Fixture record: a Data symbol "a" at address 5. -/
def rec_a_data : RecordedArgs := ⟨"a", 5, mst_data, none, 0⟩

/-- Fixture record: an Unknown-kind symbol "a" at address 5. -/
def rec_a_unknown : RecordedArgs := ⟨"a", 5, mst_unknown, none, 0⟩

/-- Fixture record: a Data symbol "g" at address 3. -/
def rec_g_data : RecordedArgs := ⟨"g", 3, mst_data, none, 0⟩

/-! ## Lemmas about compaction -/

theorem compact_step_address (x y : MinimalSymbol) :
    (compact_step x y).address = y.address := by
  unfold compact_step; split <;> rfl

theorem compact_step_name (x y : MinimalSymbol) :
    (compact_step x y).name = y.name := by
  unfold compact_step; split <;> rfl

/-- The first entry written out by the compaction walk carries the address
and name of the entry the walk started from (duplicate merges preserve
both). -/
theorem compact_go_cons (c : MinimalSymbol) (l : List MinimalSymbol) :
    ∃ s t, compact_go c l = s :: t ∧ s.address = c.address ∧
      s.name = c.name := by
  induction l generalizing c with
  | nil => exact ⟨c, [], rfl, rfl, rfl⟩
  | cons y rest ih =>
    by_cases h : c.address = y.address ∧ c.name = y.name
    · obtain ⟨s, t, he, ha, hn⟩ := ih (compact_step c y)
      refine ⟨s, t, by simp [compact_go, h, he], ?_, ?_⟩
      · rw [ha, compact_step_address]; exact h.1.symm
      · rw [hn, compact_step_name]; exact h.2.symm
    · exact ⟨c, compact_go y rest, by simp [compact_go, h], rfl, rfl⟩

/-- After compaction no two adjacent entries share both address and name
(whatever the input was). -/
theorem compact_go_chain_dedup (c : MinimalSymbol) (l : List MinimalSymbol) :
    List.Chain' (fun a b => ¬(a.address = b.address ∧ a.name = b.name))
      (compact_go c l) := by
  induction l generalizing c with
  | nil => simp [compact_go]
  | cons y rest ih =>
    by_cases h : c.address = y.address ∧ c.name = y.name
    · simpa [compact_go, h] using ih (compact_step c y)
    · obtain ⟨s, t, he, ha, hn⟩ := compact_go_cons y rest
      have hch := ih y
      rw [he] at hch
      rw [show compact_go c (y :: rest) = c :: s :: t by simp [compact_go, h, he]]
      exact List.chain'_cons.mpr ⟨by rw [ha, hn]; exact h, hch⟩

/-- Compaction keeps the addresses non-decreasing. -/
theorem compact_go_chain_le (c : MinimalSymbol) (l : List MinimalSymbol)
    (h : List.Chain' (fun a b => a.address ≤ b.address) (c :: l)) :
    List.Chain' (fun a b => a.address ≤ b.address) (compact_go c l) := by
  induction l generalizing c with
  | nil => simp [compact_go]
  | cons y rest ih =>
    rw [List.chain'_cons] at h
    by_cases hd : c.address = y.address ∧ c.name = y.name
    · rw [show compact_go c (y :: rest) = compact_go (compact_step c y) rest by
        simp [compact_go, hd]]
      apply ih
      cases rest with
      | nil => simp
      | cons z zs =>
        rw [List.chain'_cons] at h ⊢
        exact ⟨by rw [compact_step_address]; exact h.2.1, h.2.2⟩
    · obtain ⟨s, t, he, ha, hn⟩ := compact_go_cons y rest
      rw [show compact_go c (y :: rest) = c :: compact_go y rest by
        simp [compact_go, hd], he, List.chain'_cons]
      refine ⟨by rw [ha]; exact h.1, ?_⟩
      rw [← he]; exact ih y h.2

/-- When no two adjacent entries share both address and name, compaction
changes nothing. -/
theorem compact_go_id (c : MinimalSymbol) (l : List MinimalSymbol)
    (h : List.Chain' (fun a b => ¬(a.address = b.address ∧ a.name = b.name))
      (c :: l)) :
    compact_go c l = c :: l := by
  induction l generalizing c with
  | nil => rfl
  | cons y rest ih =>
    rw [List.chain'_cons] at h
    simp [compact_go, h.1, ih y h.2]

/-- Compaction only rewrites the type field of survivors, so any property
stable under `compact_step` carries over. -/
theorem compact_go_forall (P : MinimalSymbol → Prop)
    (hstep : ∀ x y, P y → P (compact_step x y)) (c : MinimalSymbol)
    (l : List MinimalSymbol) (hc : P c) (hl : ∀ s ∈ l, P s) :
    ∀ s ∈ compact_go c l, P s := by
  induction l generalizing c with
  | nil => simpa [compact_go] using hc
  | cons y rest ih =>
    by_cases h : c.address = y.address ∧ c.name = y.name
    · rw [show compact_go c (y :: rest) = compact_go (compact_step c y) rest by
        simp [compact_go, h]]
      exact ih (compact_step c y)
        (hstep c y (hl y (List.mem_cons_self y rest)))
        (fun s hs => hl s (List.mem_cons_of_mem y hs))
    · rw [show compact_go c (y :: rest) = c :: compact_go y rest by
        simp [compact_go, h]]
      intro s hs
      rcases List.mem_cons.mp hs with h1 | h1
      · exact h1 ▸ hc
      · exact ih y (hl y (List.mem_cons_self y rest))
          (fun s hs => hl s (List.mem_cons_of_mem y hs)) s h1

/-! ## Lemmas about the sort -/

theorem msym_addr_le_iff (a b : MinimalSymbol) :
    msym_addr_le a b ↔ a.address ≤ b.address := by
  unfold msym_addr_le compare_minimal_symbols
  split_ifs with h1 h2 <;> constructor <;> intro h <;> omega

instance : IsTotal MinimalSymbol msym_addr_le :=
  ⟨fun a b => by
    rw [msym_addr_le_iff, msym_addr_le_iff]
    exact Nat.le_total a.address b.address⟩

instance : IsTrans MinimalSymbol msym_addr_le :=
  ⟨fun a b c hab hbc => by
    rw [msym_addr_le_iff] at hab hbc ⊢
    exact le_trans hab hbc⟩

/-- The sorted list has non-decreasing addresses along adjacent slots. -/
theorem sort_minimal_symbols_chain (l : List MinimalSymbol) :
    List.Chain' (fun a b => a.address ≤ b.address)
      (sort_minimal_symbols l) := by
  have hs := List.sorted_insertionSort msym_addr_le l
  have hp : List.Pairwise (fun a b : MinimalSymbol => a.address ≤ b.address)
      (sort_minimal_symbols l) :=
    hs.imp (fun h => (msym_addr_le_iff _ _).mp h)
  exact hp.chain'

theorem sort_minimal_symbols_perm (l : List MinimalSymbol) :
    List.Perm (sort_minimal_symbols l) l :=
  List.perm_insertionSort msym_addr_le l

/-! ## Index-level consequences of adjacency facts -/

/-- Transport an adjacency relation over the published part of a table to
index form (the suffix `l'` — in practice the terminator — is never
touched for `i + 1 < l.length`). -/
theorem chain'_symAt (f : MinimalSymbol → MinimalSymbol → Prop)
    (l l' : List MinimalSymbol)
    (h : List.Chain' f l) :
    ∀ i, i + 1 < l.length → f (symAt (l ++ l') i) (symAt (l ++ l') (i + 1)) := by
  intro i hi
  have e1 : symAt (l ++ l') i = l.get ⟨i, by omega⟩ := by
    unfold symAt
    rw [List.getD_append _ _ _ _ (by omega), List.getD_eq_get _ _ (by omega)]
  have e2 : symAt (l ++ l') (i + 1) = l.get ⟨i + 1, by omega⟩ := by
    unfold symAt
    rw [List.getD_append _ _ _ _ (by omega), List.getD_eq_get _ _ (by omega)]
  rw [e1, e2]
  exact List.chain'_iff_get.mp h i (by omega)

/-! ## Field preservation through the install pipeline -/

theorem symbol_init_demangled_name_address (demangle : String → Option String)
    (s : MinimalSymbol) :
    (symbol_init_demangled_name demangle s).address = s.address := by
  unfold symbol_init_demangled_name
  split_ifs with h
  · split <;> first | rfl | (split <;> rfl)
  · rfl

theorem symbol_init_demangled_name_name (demangle : String → Option String)
    (s : MinimalSymbol) :
    (symbol_init_demangled_name demangle s).name = s.name := by
  unfold symbol_init_demangled_name
  split_ifs with h
  · split <;> first | rfl | (split <;> rfl)
  · rfl

theorem symbol_init_demangled_name_mstype (demangle : String → Option String)
    (s : MinimalSymbol) :
    (symbol_init_demangled_name demangle s).mstype = s.mstype := by
  unfold symbol_init_demangled_name
  split_ifs with h
  · split <;> first | rfl | (split <;> rfl)
  · rfl

theorem install_transfer_address (leading_char : Char) (s : MinimalSymbol) :
    (install_transfer leading_char s).address = s.address := by
  unfold install_transfer
  dsimp only []
  split <;> first | rfl | (split_ifs <;> rfl)

theorem install_transfer_mstype (leading_char : Char) (s : MinimalSymbol) :
    (install_transfer leading_char s).mstype = s.mstype := by
  unfold install_transfer
  dsimp only []
  split <;> first | rfl | (split_ifs <;> rfl)

theorem install_transfer_name_isSome (leading_char : Char) (s : MinimalSymbol)
    (h : s.name.isSome) : ((install_transfer leading_char s).name).isSome := by
  unfold install_transfer
  dsimp only []
  split
  · split_ifs
    · rfl
    · exact h
  · rename_i hn
    rw [show s.name = none from hn] at h; cases h

/-- Adjacent addresses stay non-decreasing after the whole compaction. -/
theorem compact_chain_le (l : List MinimalSymbol)
    (h : List.Chain' (fun a b => a.address ≤ b.address) l) :
    List.Chain' (fun a b => a.address ≤ b.address)
      (compact_minimal_symbols l) := by
  cases l with
  | nil => simp [compact_minimal_symbols]
  | cons c rest => exact compact_go_chain_le c rest h

/-- After the whole compaction no two adjacent entries share both address
and name. -/
theorem compact_chain_dedup (l : List MinimalSymbol) :
    List.Chain' (fun a b => ¬(a.address = b.address ∧ a.name = b.name))
      (compact_minimal_symbols l) := by
  cases l with
  | nil => simp [compact_minimal_symbols]
  | cons c rest => exact compact_go_chain_dedup c rest

/-- The published records of an install have non-decreasing addresses along
adjacent slots. -/
theorem install_table_chain_le (objfile : Objfile) (buf : MsymCollection)
    (demangle : String → Option String) :
    List.Chain' (fun a b => a.address ≤ b.address)
      (install_table objfile buf demangle) := by
  unfold install_table
  rw [List.chain'_map]
  exact (compact_chain_le _
    (sort_minimal_symbols_chain (install_merged objfile buf))).imp
    (fun {a b} hab => by
      rw [symbol_init_demangled_name_address, symbol_init_demangled_name_address]
      exact hab)

/-- The published records of an install never have two adjacent slots
sharing both address and name. -/
theorem install_table_chain_dedup (objfile : Objfile) (buf : MsymCollection)
    (demangle : String → Option String) :
    List.Chain' (fun a b => ¬(a.address = b.address ∧ a.name = b.name))
      (install_table objfile buf demangle) := by
  unfold install_table
  rw [List.chain'_map]
  exact (compact_chain_dedup
    (sort_minimal_symbols (install_merged objfile buf))).imp
    (fun {a b} hab => by
      rw [symbol_init_demangled_name_address, symbol_init_demangled_name_address,
        symbol_init_demangled_name_name, symbol_init_demangled_name_name]
      exact hab)

/-- Shape of a publishing install: the table pointer. -/
theorem install_pos_msymbols (objfile : Objfile) (buf : MsymCollection)
    (demangle : String → Option String) (h : buf.msym_count > 0) :
    (install_minimal_symbols objfile buf demangle).msymbols
      = some (install_table objfile buf demangle ++ [null_symbol]) := by
  unfold install_minimal_symbols; rw [if_pos h]

/-- Shape of a publishing install: the published count. -/
theorem install_pos_count (objfile : Objfile) (buf : MsymCollection)
    (demangle : String → Option String) (h : buf.msym_count > 0) :
    (install_minimal_symbols objfile buf demangle).minimal_symbol_count
      = (install_table objfile buf demangle).length := by
  unfold install_minimal_symbols; rw [if_pos h]

/-! ## Claim C1 -/

/-- C1 (counterexample): two records at one address with equal names and
kinds Text (earlier) and Data (later).  The claim predicts that the earlier
entry survives, keeping kind Text (its kind is not Unknown, so it would stay
untouched); the code instead keeps the later entry with kind Data. -/
theorem c1_counterexample :
    compact_minimal_symbols [mkRecorded rec_a_text, mkRecorded rec_a_data]
        = [mkRecorded rec_a_data] ∧
      [mkRecorded rec_a_data] ≠ [mkRecorded rec_a_text] := by
  decide

/-- C1 (amended): in the compaction pass an entry merges with its immediate
predecessor iff both address and name match exactly; on a merge the earlier
entry of the pair is dropped and the later entry survives, and if the
survivor (the later entry) has kind Unknown, its kind is overwritten with
the dropped earlier entry's kind.  Adjacent entries that differ in address
or name are both kept, and a table with no adjacent duplicate pair is left
unchanged. -/
theorem c1_compact_merge :
    (∀ (x y : MinimalSymbol) (rest : List MinimalSymbol),
        x.address = y.address → x.name = y.name →
        compact_minimal_symbols (x :: y :: rest)
          = compact_minimal_symbols
              ((if y.mstype = mst_unknown then { y with mstype := x.mstype }
                else y) :: rest))
  ∧ (∀ (x y : MinimalSymbol) (rest : List MinimalSymbol),
        ¬(x.address = y.address ∧ x.name = y.name) →
        compact_minimal_symbols (x :: y :: rest)
          = x :: compact_minimal_symbols (y :: rest))
  ∧ (∀ l : List MinimalSymbol,
        List.Chain' (fun a b => ¬(a.address = b.address ∧ a.name = b.name)) l →
        compact_minimal_symbols l = l) := by
  refine ⟨?_, ?_, ?_⟩
  · intro x y rest h1 h2
    simp [compact_minimal_symbols, compact_go, compact_step, h1, h2]
  · intro x y rest h
    simp [compact_minimal_symbols, compact_go, h]
  · intro l hch
    cases l with
    | nil => rfl
    | cons c r => exact compact_go_id c r hch

theorem c1_witness :
    compact_minimal_symbols [mkRecorded rec_a_text, mkRecorded rec_a_unknown]
      = compact_minimal_symbols
          [(if (mkRecorded rec_a_unknown).mstype = mst_unknown then
              { mkRecorded rec_a_unknown with
                  mstype := (mkRecorded rec_a_text).mstype }
            else mkRecorded rec_a_unknown)] :=
  c1_compact_merge.1 (mkRecorded rec_a_text) (mkRecorded rec_a_unknown) []
    rfl rfl

/-! ## Claim C2 -/

/-- C2 (counterexample): install three records at one address whose names
run a, b, a.  The sort keeps that order (equal keys), compaction only
compares adjacent pairs, so the published table retains two entries (slots 0
and 2) with the same address and the same name, inside the counted
length. -/
theorem c2_counterexample :
    ∃ i j,
      i < (install_minimal_symbols empty_objfile buf_dup3
            demangle_none).minimal_symbol_count ∧
      j < (install_minimal_symbols empty_objfile buf_dup3
            demangle_none).minimal_symbol_count ∧
      i ≠ j ∧
      (symAt ((install_minimal_symbols empty_objfile buf_dup3
          demangle_none).msymbols.getD []) i).address
        = (symAt ((install_minimal_symbols empty_objfile buf_dup3
            demangle_none).msymbols.getD []) j).address ∧
      (symAt ((install_minimal_symbols empty_objfile buf_dup3
          demangle_none).msymbols.getD []) i).name
        = (symAt ((install_minimal_symbols empty_objfile buf_dup3
            demangle_none).msymbols.getD []) j).name :=
  ⟨0, 2, by decide⟩

/-- C2 (amended): for every table produced by a publishing install, no two
ADJACENT entries within the counted length share both the same address and
the same name (the compaction pass only merges adjacent pairs, so with
three or more records at one address non-adjacent duplicates can
survive). -/
theorem c2_adjacent_dedup (objfile : Objfile) (buf : MsymCollection)
    (demangle : String → Option String) (h : buf.msym_count > 0) :
    ∀ tbl, (install_minimal_symbols objfile buf demangle).msymbols = some tbl →
      ∀ i, i + 1 < (install_minimal_symbols objfile buf
            demangle).minimal_symbol_count →
        ¬((symAt tbl i).address = (symAt tbl (i + 1)).address ∧
          (symAt tbl i).name = (symAt tbl (i + 1)).name) := by
  intro tbl htbl i hi
  rw [install_pos_msymbols objfile buf demangle h] at htbl
  rw [install_pos_count objfile buf demangle h] at hi
  have htbl' := Option.some.inj htbl
  subst htbl'
  exact chain'_symAt _ _ _ (install_table_chain_dedup objfile buf demangle) i hi

theorem c2_witness :
    ¬((symAt ((install_minimal_symbols empty_objfile buf_dup3
          demangle_none).msymbols.getD []) 0).address
        = (symAt ((install_minimal_symbols empty_objfile buf_dup3
            demangle_none).msymbols.getD []) 1).address ∧
      (symAt ((install_minimal_symbols empty_objfile buf_dup3
          demangle_none).msymbols.getD []) 0).name
        = (symAt ((install_minimal_symbols empty_objfile buf_dup3
            demangle_none).msymbols.getD []) 1).name) :=
  c2_adjacent_dedup empty_objfile buf_dup3 demangle_none (by decide)
    ((install_minimal_symbols empty_objfile buf_dup3
      demangle_none).msymbols.getD []) (by decide) 0 (by decide)

/-! ## Claim C3 -/

/-- C3: for every table produced by a publishing install and every adjacent
index pair inside the counted length, the address of entry `i` is at most
the address of entry `i + 1` (addresses are unsigned, modelled as `Nat`). -/
theorem c3_installed_sorted (objfile : Objfile) (buf : MsymCollection)
    (demangle : String → Option String) (h : buf.msym_count > 0) :
    ∀ tbl, (install_minimal_symbols objfile buf demangle).msymbols = some tbl →
      ∀ i, i + 1 < (install_minimal_symbols objfile buf
            demangle).minimal_symbol_count →
        addrAt tbl i ≤ addrAt tbl (i + 1) := by
  intro tbl htbl i hi
  rw [install_pos_msymbols objfile buf demangle h] at htbl
  rw [install_pos_count objfile buf demangle h] at hi
  have htbl' := Option.some.inj htbl
  subst htbl'
  exact chain'_symAt (fun a b => a.address ≤ b.address) _ _
    (install_table_chain_le objfile buf demangle) i hi

theorem c3_witness :
    addrAt ((install_minimal_symbols empty_objfile buf_dup3
        demangle_none).msymbols.getD []) 0
      ≤ addrAt ((install_minimal_symbols empty_objfile buf_dup3
          demangle_none).msymbols.getD []) 1 :=
  c3_installed_sorted empty_objfile buf_dup3 demangle_none (by decide)
    ((install_minimal_symbols empty_objfile buf_dup3
      demangle_none).msymbols.getD []) (by decide) 0 (by decide)

/-! ## Claim C9 -/

/-- C9 (counterexample): with leading character `_` and name
"_gcc_compiled.", stripping the lead character yields exactly the
gcc_compiled marker, so the claim predicts the FileLocalText record is
dropped; the code compares the gcc markers against the UNSTRIPPED name
(whose first character is `_`, not `g`), so the record is appended and the
count grows. -/
theorem c9_counterexample :
    stripLeadingChar '_' "_gcc_compiled." = GCC_COMPILED_FLAG_SYMBOL ∧
    ((prim_record_minimal_symbol_and_info "_gcc_compiled." 5 mst_file_text
        none 0 '_' init_minimal_symbol_collection).1).msym_count
      = init_minimal_symbol_collection.msym_count + 1 := by
  decide

/-- C9 (amended): a FileLocalText record is silently dropped — collection
state completely unchanged — iff its UNSTRIPPED name equals one of the gcc
compiler markers, or its lead-char-stripped name begins with the 14
characters "__gnu_compiled" (only this second comparison strips the
per-target lead character); otherwise the record is appended and the count
grows by one. -/
theorem c9_file_text_filter (st : MsymCollection) (name : String)
    (address : Nat) (info : Option String) (sect : Int)
    (leading_char : Char) :
    (((name = GCC_COMPILED_FLAG_SYMBOL ∨ name = GCC2_COMPILED_FLAG_SYMBOL) ∨
        strStartsWith "__gnu_compiled" (stripLeadingChar leading_char name)
          = true) →
      prim_record_minimal_symbol_and_info name address mst_file_text info sect
          leading_char st = (st, none)) ∧
    (¬((name = GCC_COMPILED_FLAG_SYMBOL ∨ name = GCC2_COMPILED_FLAG_SYMBOL) ∨
        strStartsWith "__gnu_compiled" (stripLeadingChar leading_char name)
          = true) →
      ((prim_record_minimal_symbol_and_info name address mst_file_text info
          sect leading_char st).1).msym_count = st.msym_count + 1) := by
  have hiff : msym_filter_drops leading_char name ↔
      ((name = GCC_COMPILED_FLAG_SYMBOL ∨ name = GCC2_COMPILED_FLAG_SYMBOL) ∨
        strStartsWith "__gnu_compiled" (stripLeadingChar leading_char name)
          = true) := by
    unfold msym_filter_drops
    constructor
    · rintro (⟨_, hm⟩ | hp)
      · exact Or.inl hm
      · exact Or.inr hp
    · rintro (hm | hp)
      · refine Or.inl ⟨?_, hm⟩
        rcases hm with h | h <;> subst h <;> decide
      · exact Or.inr hp
  constructor
  · intro hc
    unfold prim_record_minimal_symbol_and_info
    rw [if_pos ⟨rfl, hiff.mpr hc⟩]
  · intro hc
    unfold prim_record_minimal_symbol_and_info
    rw [if_neg (fun hand => hc (hiff.mp hand.2))]
    dsimp only []
    split_ifs <;> rfl

theorem c9_witness :
    prim_record_minimal_symbol_and_info "gcc_compiled." 5 mst_file_text none 0
        '%' init_minimal_symbol_collection
      = (init_minimal_symbol_collection, none) :=
  (c9_file_text_filter init_minimal_symbol_collection "gcc_compiled." 5 none 0
      '%').1 (Or.inl (Or.inl rfl))

/-! ## Claim C10 -/

/-- Any property stable under the duplicate merge survives the whole
compaction. -/
theorem compact_forall (P : MinimalSymbol → Prop)
    (hstep : ∀ x y, P y → P (compact_step x y)) (l : List MinimalSymbol)
    (hl : ∀ s ∈ l, P s) : ∀ s ∈ compact_minimal_symbols l, P s := by
  cases l with
  | nil => intro s hs; simp [compact_minimal_symbols] at hs
  | cons c r =>
    exact compact_go_forall P hstep c r (hl c (List.mem_cons_self c r))
      (fun s hs => hl s (List.mem_cons_of_mem c hs))

/-- Every published record of an install has a present (non-NULL) name,
provided the inputs do. -/
theorem install_table_name_isSome (objfile : Objfile) (buf : MsymCollection)
    (demangle : String → Option String)
    (hex : ∀ s ∈ existing_msymbols objfile, s.name.isSome)
    (hbuf : ∀ s ∈ buf.msym_bunch.flatten, s.name.isSome) :
    ∀ s ∈ install_table objfile buf demangle, s.name.isSome := by
  intro s hs
  unfold install_table at hs
  obtain ⟨t, ht, rfl⟩ := List.mem_map.mp hs
  rw [symbol_init_demangled_name_name]
  have hmerged : ∀ u ∈ install_merged objfile buf, u.name.isSome := by
    intro u hu
    unfold install_merged at hu
    rcases List.mem_append.mp hu with h1 | h1
    · exact hex u h1
    · obtain ⟨v, hv, rfl⟩ := List.mem_map.mp h1
      exact install_transfer_name_isSome _ v (hbuf v hv)
  have hsorted :
      ∀ u ∈ sort_minimal_symbols (install_merged objfile buf),
        u.name.isSome := by
    intro u hu
    exact hmerged u ((sort_minimal_symbols_perm _).mem_iff.mp hu)
  exact compact_forall (fun s => s.name.isSome)
    (fun x y hy => by
      show (compact_step x y).name.isSome
      rw [compact_step_name]; exact hy) _ hsorted t ht

/-- The per-module name scan never reads past a NULL-name record: whatever
lies behind the terminator is invisible to it. -/
theorem lookup_scan_stops_at_null (name : String) (l l' : List MinimalSymbol)
    (hl : ∀ s ∈ l, s.name.isSome) :
    ∀ acc, lookup_scan_msymbols name (l ++ null_symbol :: l') acc
      = lookup_scan_msymbols name l acc := by
  induction l with
  | nil => intro acc; rfl
  | cons m rest ih =>
    intro acc
    obtain ⟨nm, hnm⟩ :=
      Option.isSome_iff_exists.mp (hl m (List.mem_cons_self m rest))
    simp only [List.cons_append, lookup_scan_msymbols, hnm]
    split_ifs with hf
    · rfl
    all_goals exact ih (fun s hs => hl s (List.mem_cons_of_mem m hs)) _

/-- C10: every publishing install terminates its table with a null sentinel
record — name NULL, address 0, kind Unknown — stored at the index equal to
the published count (so the count never includes it), and the per-module
scan of `lookup_minimal_symbol` reads exactly the counted records, stopping
at the sentinel. -/
theorem c10_null_sentinel (objfile : Objfile) (buf : MsymCollection)
    (demangle : String → Option String) (h : buf.msym_count > 0)
    (hex : ∀ s ∈ existing_msymbols objfile, s.name.isSome)
    (hbuf : ∀ s ∈ buf.msym_bunch.flatten, s.name.isSome) :
    ∃ tbl, (install_minimal_symbols objfile buf demangle).msymbols = some tbl ∧
      tbl.length = (install_minimal_symbols objfile buf
          demangle).minimal_symbol_count + 1 ∧
      tbl.get? (install_minimal_symbols objfile buf
          demangle).minimal_symbol_count = some null_symbol ∧
      null_symbol.name = none ∧ null_symbol.address = 0 ∧
      null_symbol.mstype = mst_unknown ∧
      ∀ name acc, lookup_scan_msymbols name tbl acc
        = lookup_scan_msymbols name
            (tbl.take (install_minimal_symbols objfile buf
              demangle).minimal_symbol_count) acc := by
  refine ⟨install_table objfile buf demangle ++ [null_symbol],
    install_pos_msymbols _ _ _ h, ?_, ?_, rfl, rfl, rfl, ?_⟩
  · rw [install_pos_count _ _ _ h]; simp
  · rw [install_pos_count _ _ _ h]; exact List.get?_concat_length _ _
  · intro name acc
    rw [install_pos_count _ _ _ h,
      List.take_left (install_table objfile buf demangle) [null_symbol]]
    exact lookup_scan_stops_at_null name _ []
      (install_table_name_isSome objfile buf demangle hex hbuf) acc

theorem c10_witness :
    ∃ tbl, (install_minimal_symbols empty_objfile buf_dup3
        demangle_none).msymbols = some tbl ∧
      tbl.length = (install_minimal_symbols empty_objfile buf_dup3
          demangle_none).minimal_symbol_count + 1 ∧
      tbl.get? (install_minimal_symbols empty_objfile buf_dup3
          demangle_none).minimal_symbol_count = some null_symbol ∧
      null_symbol.name = none ∧ null_symbol.address = 0 ∧
      null_symbol.mstype = mst_unknown ∧
      ∀ name acc, lookup_scan_msymbols name tbl acc
        = lookup_scan_msymbols name
            (tbl.take (install_minimal_symbols empty_objfile buf_dup3
              demangle_none).minimal_symbol_count) acc :=
  c10_null_sentinel empty_objfile buf_dup3 demangle_none (by decide)
    (by decide) (by decide)

/-! ## Claim C8 -/

/-- C8: `find_solib_trampoline_target` realises the Option-valued
specification with 0 as the "none" encoding: some address is produced iff
the pc resolves to a SolibTrampoline symbol T and some scanned record has
kind Text and exactly T's name, and then the address returned is that of
the first such record in scan order. -/
theorem c8_resolve_trampoline (object_files : List Objfile) (pc : Nat) :
    find_solib_trampoline_target object_files pc
        = (resolve_trampoline_target_spec object_files pc).getD 0 ∧
      ((resolve_trampoline_target_spec object_files pc).isSome ↔
        ∃ tsymbol,
          lookup_solib_trampoline_symbol_by_pc object_files pc = some tsymbol ∧
          ∃ s ∈ all_msymbols_scan object_files,
            s.mstype = mst_text ∧ s.name = tsymbol.name) := by
  constructor
  · unfold find_solib_trampoline_target resolve_trampoline_target_spec
    cases ht : lookup_solib_trampoline_symbol_by_pc object_files pc with
    | none => rfl
    | some t =>
      dsimp only []
      cases (all_msymbols_scan object_files).find?
          (fun s => decide (s.mstype = mst_text ∧ s.name = t.name)) <;> rfl
  · unfold resolve_trampoline_target_spec
    cases ht : lookup_solib_trampoline_symbol_by_pc object_files pc with
    | none => simp
    | some t => simp [List.find?_isSome, decide_eq_true_iff]

/-! ## Lemmas about the collection buffer -/

/-- One kept append when the head bunch is full: a fresh bunch is linked in
front of the chain holding just the new record. -/
theorem prim_record_step_alloc (name : String) (address : Nat)
    (ms_type : MinimalSymbolType) (info : Option String) (sect : Int)
    (leading_char : Char) (st : MsymCollection)
    (hnd : ¬(ms_type = mst_file_text ∧ msym_filter_drops leading_char name))
    (hidx : st.msym_bunch_index = BUNCH_SIZE) :
    (prim_record_minimal_symbol_and_info name address ms_type info sect
        leading_char st).1
      = { msym_bunch := [mkRecorded ⟨name, address, ms_type, info, sect⟩]
            :: st.msym_bunch,
          msym_bunch_index := 1, msym_count := st.msym_count + 1 } := by
  unfold prim_record_minimal_symbol_and_info
  rw [if_neg hnd]
  dsimp only []
  rw [if_pos hidx]
  rfl

/-- One kept append into a non-full head bunch: the record goes to the end
of that bunch. -/
theorem prim_record_step_noalloc (name : String) (address : Nat)
    (ms_type : MinimalSymbolType) (info : Option String) (sect : Int)
    (leading_char : Char) (st : MsymCollection) (b : List MinimalSymbol)
    (rest : List (List MinimalSymbol))
    (hnd : ¬(ms_type = mst_file_text ∧ msym_filter_drops leading_char name))
    (hidx : st.msym_bunch_index ≠ BUNCH_SIZE)
    (hb : st.msym_bunch = b :: rest) :
    (prim_record_minimal_symbol_and_info name address ms_type info sect
        leading_char st).1
      = { msym_bunch := (b ++ [mkRecorded ⟨name, address, ms_type, info, sect⟩])
            :: rest,
          msym_bunch_index := st.msym_bunch_index + 1,
          msym_count := st.msym_count + 1 } := by
  unfold prim_record_minimal_symbol_and_info
  rw [if_neg hnd]
  dsimp only []
  rw [if_neg hidx, hb]
  rfl

/-- One kept append into an empty chain with a non-full index (unreachable
from `init_minimal_symbol_collection`, covered for totality). -/
theorem prim_record_step_nil (name : String) (address : Nat)
    (ms_type : MinimalSymbolType) (info : Option String) (sect : Int)
    (leading_char : Char) (st : MsymCollection)
    (hnd : ¬(ms_type = mst_file_text ∧ msym_filter_drops leading_char name))
    (hidx : st.msym_bunch_index ≠ BUNCH_SIZE)
    (hb : st.msym_bunch = []) :
    (prim_record_minimal_symbol_and_info name address ms_type info sect
        leading_char st).1
      = { msym_bunch := [[mkRecorded ⟨name, address, ms_type, info, sect⟩]],
          msym_bunch_index := st.msym_bunch_index + 1,
          msym_count := st.msym_count + 1 } := by
  unfold prim_record_minimal_symbol_and_info
  rw [if_neg hnd]
  dsimp only []
  rw [if_neg hidx, hb]
  rfl

/-- A kept append grows the flattened buffer contents by exactly the stored
record, up to permutation (the record lands in the middle of the flattened
chain when older full bunches exist). -/
theorem prim_record_flatten_perm (name : String) (address : Nat)
    (ms_type : MinimalSymbolType) (info : Option String) (sect : Int)
    (leading_char : Char) (st : MsymCollection)
    (hnd : ¬(ms_type = mst_file_text ∧ msym_filter_drops leading_char name)) :
    List.Perm
      ((prim_record_minimal_symbol_and_info name address ms_type info sect
          leading_char st).1).msym_bunch.flatten
      (st.msym_bunch.flatten ++ [mkRecorded ⟨name, address, ms_type, info, sect⟩]) := by
  by_cases hidx : st.msym_bunch_index = BUNCH_SIZE
  · rw [prim_record_step_alloc _ _ _ _ _ _ _ hnd hidx]
    simp only [List.flatten_cons]
    exact (List.perm_append_singleton _ _).symm
  · cases hb : st.msym_bunch with
    | nil =>
      rw [prim_record_step_nil _ _ _ _ _ _ _ hnd hidx hb]
      simp
    | cons b rest =>
      rw [prim_record_step_noalloc _ _ _ _ _ _ _ _ _ hnd hidx hb]
      simp only [List.flatten_cons, List.append_assoc, List.singleton_append]
      exact List.Perm.append_left b (List.perm_append_singleton _ _).symm

/-- A kept append increments `msym_count`. -/
theorem prim_record_kept_count (name : String) (address : Nat)
    (ms_type : MinimalSymbolType) (info : Option String) (sect : Int)
    (leading_char : Char) (st : MsymCollection)
    (hnd : ¬(ms_type = mst_file_text ∧ msym_filter_drops leading_char name)) :
    ((prim_record_minimal_symbol_and_info name address ms_type info sect
        leading_char st).1).msym_count = st.msym_count + 1 := by
  unfold prim_record_minimal_symbol_and_info
  rw [if_neg hnd]
  dsimp only []
  split_ifs <;> rfl

/-- Folding kept appends grows the flattened contents by the stored records,
up to permutation. -/
theorem record_fold_flatten_perm (leading_char : Char) :
    ∀ (rs : List RecordedArgs) (st : MsymCollection),
      (∀ r ∈ rs, ¬(r.ms_type = mst_file_text ∧
        msym_filter_drops leading_char r.name)) →
      List.Perm
        ((rs.foldl (fun st r => (prim_record_minimal_symbol_and_info r.name
            r.address r.ms_type r.info r.sect leading_char st).1)
          st).msym_bunch.flatten)
        (st.msym_bunch.flatten ++ rs.map mkRecorded) := by
  intro rs
  induction rs with
  | nil => intro st _; simp
  | cons r rest ih =>
    intro st hnd
    rw [List.foldl_cons]
    have hkey := prim_record_flatten_perm r.name r.address r.ms_type r.info
      r.sect leading_char st (hnd r (List.mem_cons_self r rest))
    have h2 := ih
      ((prim_record_minimal_symbol_and_info r.name r.address r.ms_type r.info
        r.sect leading_char st).1)
      (fun x hx => hnd x (List.mem_cons_of_mem r hx))
    refine h2.trans ?_
    refine (List.Perm.append_right (rest.map mkRecorded) hkey).trans ?_
    rw [List.map_cons, List.append_assoc, List.singleton_append]

/-- Folding kept appends adds their number to `msym_count`. -/
theorem record_fold_count (leading_char : Char) :
    ∀ (rs : List RecordedArgs) (st : MsymCollection),
      (∀ r ∈ rs, ¬(r.ms_type = mst_file_text ∧
        msym_filter_drops leading_char r.name)) →
      (rs.foldl (fun st r => (prim_record_minimal_symbol_and_info r.name
          r.address r.ms_type r.info r.sect leading_char st).1)
        st).msym_count = st.msym_count + rs.length := by
  intro rs
  induction rs with
  | nil => intro st _; simp
  | cons r rest ih =>
    intro st hnd
    rw [List.foldl_cons,
      ih _ (fun x hx => hnd x (List.mem_cons_of_mem r hx)),
      prim_record_kept_count r.name r.address r.ms_type r.info r.sect
        leading_char st (hnd r (List.mem_cons_self r rest))]
    simp only [List.length_cons]
    omega

/-- While everything fits into the single first bunch, kept appends extend
that bunch in append order. -/
theorem record_fold_single_bunch (leading_char : Char) :
    ∀ (rs : List RecordedArgs) (st : MsymCollection) (b : List MinimalSymbol),
      st.msym_bunch = [b] → st.msym_bunch_index = b.length →
      b.length + rs.length ≤ BUNCH_SIZE →
      (∀ r ∈ rs, ¬(r.ms_type = mst_file_text ∧
        msym_filter_drops leading_char r.name)) →
      (rs.foldl (fun st r => (prim_record_minimal_symbol_and_info r.name
          r.address r.ms_type r.info r.sect leading_char st).1)
        st).msym_bunch = [b ++ rs.map mkRecorded] := by
  intro rs
  induction rs with
  | nil => intro st b h1 _ _ _; simpa using h1
  | cons r rest ih =>
    intro st b h1 h2 h3 h4
    have hidx : st.msym_bunch_index ≠ BUNCH_SIZE := by
      rw [h2]; simp only [List.length_cons] at h3; omega
    rw [List.foldl_cons,
      prim_record_step_noalloc r.name r.address r.ms_type r.info r.sect
        leading_char st b [] (h4 r (List.mem_cons_self r rest)) hidx h1]
    rw [ih _ (b ++ [mkRecorded r]) rfl
      (by simp [h2])
      (by simp only [List.length_append, List.length_singleton,
            List.length_cons, List.length_nil] at h3 ⊢; omega)
      (fun x hx => h4 x (List.mem_cons_of_mem r hx))]
    rw [List.map_cons, List.append_assoc, List.singleton_append]

/-- Up to BUNCH_SIZE kept records, the whole collection is one bunch holding
them in append order. -/
theorem record_list_single_bunch (leading_char : Char) (rs : List RecordedArgs)
    (hlen : rs.length ≤ BUNCH_SIZE)
    (hnd : ∀ r ∈ rs, ¬(r.ms_type = mst_file_text ∧
      msym_filter_drops leading_char r.name)) :
    (record_list leading_char rs).msym_bunch
      = if rs = [] then [] else [rs.map mkRecorded] := by
  cases rs with
  | nil => rfl
  | cons r rest =>
    rw [if_neg (by simp)]
    unfold record_list
    rw [List.foldl_cons,
      prim_record_step_alloc r.name r.address r.ms_type r.info r.sect
        leading_char init_minimal_symbol_collection
        (hnd r (List.mem_cons_self r rest)) rfl]
    rw [record_fold_single_bunch leading_char rest _ [mkRecorded r] rfl rfl
      (by simp only [List.length_singleton, List.length_cons,
            List.length_nil] at hlen ⊢; omega)
      (fun x hx => hnd x (List.mem_cons_of_mem r hx))]
    rw [List.map_cons, List.singleton_append]

/-! ## Claim C6 -/

set_option maxRecDepth 16384 in
/-- C6 (counterexample): append 128 records (one more than BUNCH_SIZE).
The install copy walks the bunch chain newest-first, so the merged array
starts with record number 127 instead of record number 0 — NOT the append
order the claim states. -/
theorem c6_counterexample :
    ((install_merged empty_objfile (record_list '%' recs_bunch)).head?).map
        (fun s => s.address) = some 127 ∧
      install_merged empty_objfile (record_list '%' recs_bunch)
        ≠ existing_msymbols empty_objfile ++
            (recs_bunch.map mkRecorded).map (install_transfer '%') := by
  decide

/-- C6 (amended): the merged array handed to the sort is the existing table
unchanged, followed by the buffer records with language forced to Auto and
the leading symbol character stripped — but in bunch-chain order (most
recently allocated bunch first), which is a permutation of append order and
coincides with append order exactly while the buffer holds at most
BUNCH_SIZE (127) records. -/
theorem c6_merged_order (objfile : Objfile) (rs : List RecordedArgs)
    (hnd : ∀ r ∈ rs, ¬(r.ms_type = mst_file_text ∧
      msym_filter_drops objfile.leading_char r.name)) :
    List.Perm (install_merged objfile (record_list objfile.leading_char rs))
        (existing_msymbols objfile ++
          (rs.map mkRecorded).map (install_transfer objfile.leading_char)) ∧
    (rs.length ≤ BUNCH_SIZE →
      install_merged objfile (record_list objfile.leading_char rs)
        = existing_msymbols objfile ++
            (rs.map mkRecorded).map (install_transfer objfile.leading_char)) := by
  constructor
  · unfold install_merged
    apply List.Perm.append_left
    apply List.Perm.map
    have h := record_fold_flatten_perm objfile.leading_char rs
      init_minimal_symbol_collection hnd
    simpa [record_list] using h
  · intro hlen
    unfold install_merged
    rw [record_list_single_bunch objfile.leading_char rs hlen hnd]
    by_cases hrs : rs = []
    · subst hrs; simp
    · rw [if_neg hrs]; simp

theorem c6_witness :
    install_merged empty_objfile (record_list '%' [rec_a_text])
      = existing_msymbols empty_objfile ++
          ([rec_a_text].map mkRecorded).map (install_transfer '%') :=
  (c6_merged_order empty_objfile [rec_a_text] (by decide)).2 (by decide)

/-! ## Lemmas about name lookup -/

/-- Once `found_symbol` is set the scan changes nothing. -/
theorem lookup_scan_found (name : String) (l : List MinimalSymbol)
    (acc : LookupNameAcc) (hf : acc.found_symbol ≠ none) :
    lookup_scan_msymbols name l acc = acc := by
  induction l with
  | nil => rfl
  | cons m rest ih =>
    simp only [lookup_scan_msymbols]
    cases m.name with
    | none => rfl
    | some nm => simp [hf]

/-- The scan sees exactly the prefix of records before the first NULL
name. -/
theorem lookup_scan_takeWhile (name : String) (l : List MinimalSymbol) :
    ∀ acc, lookup_scan_msymbols name l acc
      = lookup_scan_msymbols name (l.takeWhile (fun s => s.name.isSome)) acc := by
  induction l with
  | nil => intro acc; rfl
  | cons m rest ih =>
    intro acc
    cases hm : m.name with
    | none => simp [lookup_scan_msymbols, List.takeWhile_cons, hm]
    | some nm =>
      simp only [lookup_scan_msymbols, List.takeWhile_cons, hm,
        Option.isSome_some, if_true]
      split_ifs with hf
      · rfl
      all_goals exact ih _

/-- Scanning a concatenation of NULL-free tables composes. -/
theorem lookup_scan_append (name : String) (l1 l2 : List MinimalSymbol)
    (h1 : ∀ s ∈ l1, s.name.isSome) :
    ∀ acc, lookup_scan_msymbols name (l1 ++ l2) acc
      = lookup_scan_msymbols name l2 (lookup_scan_msymbols name l1 acc) := by
  induction l1 with
  | nil => intro acc; rfl
  | cons m rest ih =>
    intro acc
    obtain ⟨nm, hm⟩ :=
      Option.isSome_iff_exists.mp (h1 m (List.mem_cons_self m rest))
    simp only [List.cons_append, lookup_scan_msymbols, hm]
    split_ifs with hf
    · rw [lookup_scan_found name l2 acc hf]
    all_goals exact ih (fun s hs => h1 s (List.mem_cons_of_mem m hs)) _

/-- Every record of the flattened scan sequence has a present name. -/
theorem all_msymbols_scan_isSome (object_files : List Objfile) :
    ∀ s ∈ all_msymbols_scan object_files, s.name.isSome := by
  intro s hs
  unfold all_msymbols_scan at hs
  obtain ⟨m, _, hsm⟩ := List.mem_flatMap.mp hs
  simpa using List.mem_takeWhile_imp hsm

/-- The whole-registry loop of `lookup_minimal_symbol` equals the scan of
the flattened sequence. -/
theorem lookup_loop_flat (name : String) (object_files : List Objfile) :
    ∀ idx acc, lookup_objfile_loop name none idx object_files acc
      = lookup_scan_msymbols name (all_msymbols_scan object_files) acc := by
  induction object_files with
  | nil => intro idx acc; rfl
  | cons m rest ih =>
    intro idx acc
    simp only [lookup_objfile_loop, all_msymbols_scan, List.flatMap_cons]
    by_cases hf : acc.found_symbol ≠ none
    · rw [if_pos hf, lookup_scan_found name _ acc hf]
    · rw [if_neg hf, if_pos (Or.inl trivial)]
      rw [lookup_scan_append name _ _
        (fun s hs => by simpa using List.mem_takeWhile_imp hs)]
      cases hmm : m.msymbols with
      | none =>
        simp only [Option.getD_none, List.takeWhile_nil]
        exact ih (idx + 1) acc
      | some tbl =>
        simp only [Option.getD_some]
        rw [← lookup_scan_takeWhile name tbl acc]
        exact ih (idx + 1) _

/-- `getLast?` of a cons, phrased through `Option.or`. -/
theorem getLast?_cons_or {α : Type} (a : α) (l : List α) :
    (a :: l).getLast? = l.getLast?.or (some a) := by
  induction l generalizing a with
  | nil => rfl
  | cons b bs ih =>
    rw [List.getLast?_cons_cons, ih b]
    cases bs.getLast? <;> simp

/-- The switch stores a global-kind match as the found symbol. -/
theorem lookup_switch_global (s : MinimalSymbol) (acc : LookupNameAcc)
    (hg : is_global_kind s.mstype = true) :
    lookup_switch s acc = { acc with found_symbol := some s } := by
  obtain ⟨n, a, t, i, sc, lg, d⟩ := s
  cases t <;> simp_all [lookup_switch, is_global_kind]

/-- The switch stores a file-kind match as the file-local symbol. -/
theorem lookup_switch_file (s : MinimalSymbol) (acc : LookupNameAcc)
    (hf : is_file_kind s.mstype = true) :
    lookup_switch s acc = { acc with found_file_symbol := some s } := by
  obtain ⟨n, a, t, i, sc, lg, d⟩ := s
  cases t <;> simp_all [lookup_switch, is_file_kind]

/-- The switch stores a trampoline match only into an empty slot. -/
theorem lookup_switch_tramp (s : MinimalSymbol) (acc : LookupNameAcc)
    (ht : s.mstype = mst_solib_trampoline) :
    lookup_switch s acc
      = if acc.trampoline_symbol = none then
          { acc with trampoline_symbol := some s }
        else acc := by
  obtain ⟨n, a, t, i, sc, lg, d⟩ := s
  change t = mst_solib_trampoline at ht
  subst ht
  rfl

/-- Every kind is global, file-scoped, or the trampoline kind. -/
theorem kind_trichotomy (t : MinimalSymbolType) :
    is_global_kind t = true ∨ is_file_kind t = true ∨
      t = mst_solib_trampoline := by
  cases t <;> simp [is_global_kind, is_file_kind]

/-- If the sequence holds a first global match, the scan stops with exactly
that record as the found symbol. -/
theorem scan_finds_global (name : String) :
    ∀ (l : List MinimalSymbol) (acc : LookupNameAcc) (g : MinimalSymbol),
      (∀ s ∈ l, s.name.isSome) → acc.found_symbol = none →
      l.find? (global_match name) = some g →
      (lookup_scan_msymbols name l acc).found_symbol = some g := by
  intro l
  induction l with
  | nil => intro acc g _ _ hf; simp at hf
  | cons m rest ih =>
    intro acc g hsome hacc hf
    obtain ⟨nm, hm⟩ :=
      Option.isSome_iff_exists.mp (hsome m (List.mem_cons_self m rest))
    by_cases hp : global_match name m = true
    · rw [List.find?_cons_of_pos rest hp] at hf
      have hg : m = g := Option.some.inj hf
      subst hg
      simp only [global_match, Bool.and_eq_true, decide_eq_true_eq] at hp
      have hnm : nm = name := by rw [hm] at hp; exact Option.some.inj hp.1
      simp only [lookup_scan_msymbols, hm]
      rw [if_neg (fun hcon => hcon hacc), if_pos hnm,
        lookup_switch_global m acc hp.2,
        lookup_scan_found name rest _ (by simp)]
    · rw [List.find?_cons_of_neg rest hp] at hf
      simp only [lookup_scan_msymbols, hm]
      rw [if_neg (fun hcon => hcon hacc)]
      refine ih _ g (fun s hs => hsome s (List.mem_cons_of_mem m hs)) ?_ hf
      by_cases hnm : nm = name
      · rw [if_pos hnm]
        have hname : m.name = some name := by rw [hm, hnm]
        have hng : is_global_kind m.mstype = false := by
          simp only [global_match, Bool.and_eq_true, decide_eq_true_eq,
            not_and] at hp
          have h2 := hp hname
          cases hgk : is_global_kind m.mstype
          · rfl
          · exact absurd hgk h2
        rcases kind_trichotomy m.mstype with hk | hk | hk
        · simp [hk] at hng
        · rw [lookup_switch_file m acc hk]; simp [hacc]
        · rw [lookup_switch_tramp m acc hk]; split_ifs <;> simp [hacc]
      · rw [if_neg hnm]; exact hacc

/-- With no global match anywhere, the scan completes: the found symbol
stays empty, the file slot holds the LAST file match (overwrite semantics)
and the trampoline slot holds the FIRST trampoline match (first-found
wins). -/
theorem scan_no_global (name : String) :
    ∀ (l : List MinimalSymbol) (acc : LookupNameAcc),
      (∀ s ∈ l, s.name.isSome) → acc.found_symbol = none →
      (∀ s ∈ l, ¬(global_match name s = true)) →
      (lookup_scan_msymbols name l acc).found_symbol = none ∧
      (lookup_scan_msymbols name l acc).found_file_symbol
        = ((l.filter (file_match name)).getLast?).or acc.found_file_symbol ∧
      (lookup_scan_msymbols name l acc).trampoline_symbol
        = acc.trampoline_symbol.or (l.find? (tramp_match name)) := by
  intro l
  induction l with
  | nil =>
    intro acc _ hacc _
    exact ⟨hacc, by simp [lookup_scan_msymbols],
      by simp [lookup_scan_msymbols]⟩
  | cons m rest ih =>
    intro acc hsome hacc hng
    have hsome' := fun s hs => hsome s (List.mem_cons_of_mem m hs)
    have hng' := fun s hs => hng s (List.mem_cons_of_mem m hs)
    obtain ⟨nm, hm⟩ :=
      Option.isSome_iff_exists.mp (hsome m (List.mem_cons_self m rest))
    have hngm := hng m (List.mem_cons_self m rest)
    simp only [lookup_scan_msymbols, hm]
    rw [if_neg (fun hcon => hcon hacc)]
    by_cases hnm : nm = name
    · rw [if_pos hnm]
      have hname : m.name = some name := by rw [hm, hnm]
      have hngk : is_global_kind m.mstype = false := by
        simp only [global_match, Bool.and_eq_true, decide_eq_true_eq,
          not_and] at hngm
        have h2 := hngm hname
        cases hgk : is_global_kind m.mstype
        · rfl
        · exact absurd hgk h2
      rcases kind_trichotomy m.mstype with hk | hk | hk
      · simp [hk] at hngk
      · -- file-scoped kind: overwrite the file slot
        rw [lookup_switch_file m acc hk]
        obtain ⟨h1, h2, h3⟩ :=
          ih { acc with found_file_symbol := some m } hsome' (by simp [hacc])
            hng'
        refine ⟨h1, ?_, ?_⟩
        · rw [h2]
          have hfm : file_match name m = true := by
            simp [file_match, hname, hk]
          rw [List.filter_cons_of_pos hfm, getLast?_cons_or,
            Option.or_assoc, Option.or_some]
        · rw [h3]
          have htm : ¬(tramp_match name m = true) := by
            simp only [tramp_match, Bool.and_eq_true, decide_eq_true_eq]
            rintro ⟨-, ht⟩
            rw [ht] at hk
            simp [is_file_kind] at hk
          rw [List.find?_cons_of_neg rest htm]
      · -- trampoline kind: fill the slot only when empty
        rw [lookup_switch_tramp m acc hk]
        have hfm : ¬(file_match name m = true) := by
          simp only [file_match, Bool.and_eq_true, decide_eq_true_eq]
          rintro ⟨-, hf2⟩
          rw [hk] at hf2
          simp [is_file_kind] at hf2
        have htm : tramp_match name m = true := by
          simp [tramp_match, hname, hk]
        rw [List.find?_cons_of_pos rest htm]
        by_cases htr : acc.trampoline_symbol = none
        · rw [if_pos htr]
          obtain ⟨h1, h2, h3⟩ :=
            ih { acc with trampoline_symbol := some m } hsome'
              (by simp [hacc]) hng'
          refine ⟨h1, ?_, ?_⟩
          · rw [h2, List.filter_cons_of_neg hfm]
          · rw [h3, htr]
            simp
        · rw [if_neg htr]
          obtain ⟨h1, h2, h3⟩ := ih acc hsome' hacc hng'
          refine ⟨h1, ?_, ?_⟩
          · rw [h2, List.filter_cons_of_neg hfm]
          · rw [h3]
            obtain ⟨t0, ht0⟩ := Option.ne_none_iff_exists'.mp htr
            rw [ht0]
            simp
    · rw [if_neg hnm]
      have hnn : m.name ≠ some name := by
        rw [hm]; intro hcon; exact hnm (Option.some.inj hcon)
      have hfm : ¬(file_match name m = true) := by simp [file_match, hnn]
      have htm : ¬(tramp_match name m = true) := by simp [tramp_match, hnn]
      obtain ⟨h1, h2, h3⟩ := ih acc hsome' hacc hng'
      exact ⟨h1, by rw [h2, List.filter_cons_of_neg hfm],
        by rw [h3, List.find?_cons_of_neg rest htm]⟩

/-! ## Claim C5 -/

/-- C5: name lookup over the whole registry returns the first global match
(kind Text/Data/Bss/Absolute/Unknown) in scan order if one exists, the scan
stopping there; otherwise the retained file-local match (later file-local
matches overwrite earlier ones); otherwise the retained trampoline match
(first trampoline found, never overwritten); otherwise none — precedence
Global > FileLocal > Trampoline > none.  `sfile` is immaterial (the build
without per-symbol source files). -/
theorem c5_lookup_name_precedence (object_files : List Objfile)
    (name : String) (sfile : Option String) :
    lookup_minimal_symbol object_files name sfile none
      = lookup_name_spec object_files name := by
  unfold lookup_minimal_symbol lookup_name_spec
  dsimp only []
  rw [lookup_loop_flat name object_files 0]
  cases hfind : (all_msymbols_scan object_files).find? (global_match name) with
  | some g =>
    rw [scan_finds_global name _ _ g (all_msymbols_scan_isSome object_files)
      rfl hfind]
  | none =>
    obtain ⟨h1, h2, h3⟩ := scan_no_global name (all_msymbols_scan object_files)
      { found_symbol := none, found_file_symbol := none,
        trampoline_symbol := none }
      (all_msymbols_scan_isSome object_files) rfl
      (List.find?_eq_none.mp hfind)
    rw [h1, h2, h3]
    dsimp only
    simp only [Option.or_none, Option.none_or]

/-! ## Lemmas about the address binary search -/

/-- Non-decreasing adjacent addresses give monotonicity over the counted
range. -/
theorem addrSortedN_mono (tbl : List MinimalSymbol) (count : Nat)
    (hs : AddrSortedN tbl count) :
    ∀ i j, i ≤ j → j < count → addrAt tbl i ≤ addrAt tbl j := by
  intro i j
  induction j with
  | zero =>
    intro hij _
    have : i = 0 := by omega
    subst this
    exact le_refl _
  | succ j ih =>
    intro hij hj
    by_cases hij' : i = j + 1
    · subst hij'; exact le_refl _
    · exact le_trans (ih (by omega) (by omega)) (hs j hj)

/-- The interval-shrinking loop, under its invariants: starting inside the
table with the greatest suitable index `js` trapped between `lo` and an
upper end whose address bounds `addrAt js`, the loop lands on an index whose
address equals `addrAt js` — the greatest address not exceeding the pc. -/
theorem msym_search_invariant (tbl : List MinimalSymbol) (count pc : Nat)
    (hs : AddrSortedN tbl count) (js : Nat) (hjs : js < count)
    (hjle : addrAt tbl js ≤ pc)
    (hjmax : ∀ k, k < count → addrAt tbl k ≤ pc → k ≤ js) :
    ∀ fuel lo hi, lo ≤ hi → hi < count → lo ≤ js →
      addrAt tbl js ≤ addrAt tbl hi → hi - lo ≤ fuel →
      msym_search tbl pc fuel lo hi < count ∧
        addrAt tbl (msym_search tbl pc fuel lo hi) = addrAt tbl js := by
  intro fuel
  induction fuel with
  | zero =>
    intro lo hi hlohi hhic hlojs hjshi hfuel
    have hlo : lo = hi := by omega
    subst hlo
    simp only [msym_search]
    exact ⟨hhic,
      le_antisymm (addrSortedN_mono tbl count hs lo js hlojs hjs) hjshi⟩
  | succ fuel ih =>
    intro lo hi hlohi hhic hlojs hjshi hfuel
    have hunfold : msym_search tbl pc (fuel + 1) lo hi
        = if addrAt tbl hi > pc then
            (if addrAt tbl ((lo + hi) / 2) ≥ pc ∨ lo = (lo + hi) / 2 then
              msym_search tbl pc fuel lo ((lo + hi) / 2)
            else msym_search tbl pc fuel ((lo + hi) / 2) hi)
          else hi := rfl
    by_cases hguard : addrAt tbl hi > pc
    · have hlolt : lo < hi := by
        rcases Nat.lt_or_ge lo hi with h | h
        · exact h
        · exfalso
          have hle : lo = hi := by omega
          subst hle
          have : addrAt tbl lo ≤ pc :=
            le_trans (addrSortedN_mono tbl count hs lo js hlojs hjs) hjle
          omega
      have hmidlo : lo ≤ (lo + hi) / 2 := by omega
      have hmidhi : (lo + hi) / 2 < hi := by omega
      by_cases hcond : addrAt tbl ((lo + hi) / 2) ≥ pc ∨ lo = (lo + hi) / 2
      · rw [hunfold, if_pos hguard, if_pos hcond]
        refine ih lo ((lo + hi) / 2) hmidlo (by omega) hlojs ?_ ?_
        · rcases hcond with hge | heq
          · exact le_trans hjle hge
          · have hhieq : hi = lo + 1 := by omega
            have hjslo : js ≤ lo := by
              by_contra hcon
              push_neg at hcon
              have hhijs : hi ≤ js := by omega
              have := addrSortedN_mono tbl count hs hi js hhijs hjs
              omega
            have hjseq : js = lo := le_antisymm hjslo hlojs
            rw [← heq, ← hjseq]
        · rcases hcond with hge | heq
          · omega
          · omega
      · rw [hunfold, if_pos hguard, if_neg hcond]
        push_neg at hcond
        refine ih ((lo + hi) / 2) hi (le_of_lt hmidhi) hhic ?_ hjshi ?_
        · exact hjmax _ (by omega) (le_of_lt hcond.1)
        · have : lo < (lo + hi) / 2 := by
            rcases Nat.lt_or_ge lo ((lo + hi) / 2) with h | h
            · exact h
            · exfalso; exact hcond.2 (by omega)
          omega
    · rw [hunfold, if_neg hguard]
      refine ⟨hhic, ?_⟩
      have hhile : addrAt tbl hi ≤ pc := by omega
      have hhijs : hi ≤ js := hjmax hi hhic hhile
      exact le_antisymm (addrSortedN_mono tbl count hs hi js hhijs hjs) hjshi

/-- Over a sorted counted range whose first address does not exceed the pc,
the search lands on an index (inside the count) whose address is the
greatest address not exceeding the pc. -/
theorem msym_search_max (tbl : List MinimalSymbol) (count pc : Nat)
    (hs : AddrSortedN tbl count) (hc : 1 ≤ count)
    (h0 : addrAt tbl 0 ≤ pc) :
    msym_search tbl pc count 0 (count - 1) < count ∧
      addrAt tbl (msym_search tbl pc count 0 (count - 1)) ≤ pc ∧
      ∀ k, k < count → addrAt tbl k ≤ pc →
        addrAt tbl k ≤ addrAt tbl (msym_search tbl pc count 0 (count - 1)) := by
  have hjsle : addrAt tbl (Nat.findGreatest (fun j => addrAt tbl j ≤ pc)
      (count - 1)) ≤ pc :=
    Nat.findGreatest_spec (P := fun j => addrAt tbl j ≤ pc) (Nat.zero_le _) h0
  have hjsc : Nat.findGreatest (fun j => addrAt tbl j ≤ pc) (count - 1)
      < count := by
    have := Nat.findGreatest_le (P := fun j => addrAt tbl j ≤ pc) (count - 1)
    omega
  have hjmax : ∀ k, k < count → addrAt tbl k ≤ pc →
      k ≤ Nat.findGreatest (fun j => addrAt tbl j ≤ pc) (count - 1) := by
    intro k hk hkle
    exact Nat.le_findGreatest (by omega) hkle
  obtain ⟨h1, h2⟩ := msym_search_invariant tbl count pc hs _ hjsc hjsle hjmax
    count 0 (count - 1) (by omega) (by omega) (Nat.zero_le _)
    (addrSortedN_mono tbl count hs _ (count - 1) (by
      have := Nat.findGreatest_le (P := fun j => addrAt tbl j ≤ pc) (count - 1)
      omega) (by omega))
    (by omega)
  refine ⟨h1, by rw [h2]; exact hjsle, ?_⟩
  intro k hk hkle
  rw [h2]
  exact addrSortedN_mono tbl count hs k _ (hjmax k hk hkle) hjsc

/-- The backward walk is the identity on a non-Absolute entry. -/
theorem msym_skip_abs_of_not_abs (tbl : List MinimalSymbol) (i : Nat)
    (h : (symAt tbl i).mstype ≠ mst_abs) :
    msym_skip_abs tbl i = some i := by
  cases i <;> simp [msym_skip_abs, h]

/-- The per-module loop of `lookup_minimal_symbol_by_pc` is the best-of
reduction of the contributed candidates. -/
theorem lookup_pc_fold (object_files : List Objfile) (pc : Nat) :
    lookup_minimal_symbol_by_pc object_files pc
      = best_by_address
          (object_files.filterMap (fun m => pc_candidate m pc)) := by
  unfold lookup_minimal_symbol_by_pc best_by_address
  suffices h : ∀ (mods : List Objfile) (acc : Option MinimalSymbol),
      mods.foldl
        (fun best m =>
          match pc_candidate m pc with
          | none => best
          | some c =>
            match best with
            | none => some c
            | some b => if b.address < c.address then some c else some b)
        acc
      = (mods.filterMap (fun m => pc_candidate m pc)).foldl
          (fun best c =>
            match best with
            | none => some c
            | some b => if b.address < c.address then some c else some b)
          acc by
    exact h object_files none
  intro mods
  induction mods with
  | nil => intro acc; rfl
  | cons m rest ih =>
    intro acc
    rw [List.foldl_cons, List.filterMap_cons]
    cases hc : pc_candidate m pc with
    | none => simp only [hc]; exact ih acc
    | some c => simp only [hc]; rw [List.foldl_cons]; exact ih _

/-! ## Claim C4 -/

/-- C4: with every module table sorted ascending by address, address lookup
is the best-of reduction (greatest address wins, the strict comparison
letting the first-found module keep an exact tie, none when nothing is
contributed) of per-module candidates, where a module with no table
contributes nothing, a module whose lowest address exceeds the pc
contributes nothing, and otherwise the candidate arises by walking backward
across Absolute entries from a binary-search index holding the greatest
address that does not exceed the pc. -/
theorem c4_lookup_by_pc (object_files : List Objfile) (pc : Nat)
    (hwf : ∀ m ∈ object_files, m.msymbols = none ∨
      ∃ tbl, m.msymbols = some tbl ∧ 1 ≤ m.minimal_symbol_count ∧
        AddrSortedN tbl m.minimal_symbol_count) :
    lookup_minimal_symbol_by_pc object_files pc
        = best_by_address
            (object_files.filterMap (fun m => pc_candidate m pc)) ∧
      (∀ m ∈ object_files, m.msymbols = none → pc_candidate m pc = none) ∧
      (∀ m ∈ object_files, ∀ tbl, m.msymbols = some tbl →
        (pc < addrAt tbl 0 → pc_candidate m pc = none) ∧
        (addrAt tbl 0 ≤ pc → ∃ i, i < m.minimal_symbol_count ∧
          addrAt tbl i ≤ pc ∧
          (∀ k, k < m.minimal_symbol_count → addrAt tbl k ≤ pc →
            addrAt tbl k ≤ addrAt tbl i) ∧
          pc_candidate m pc = (msym_skip_abs tbl i).map (symAt tbl))) := by
  refine ⟨lookup_pc_fold object_files pc, ?_, ?_⟩
  · intro m _ hm
    unfold pc_candidate
    rw [hm]
  · intro m hm tbl htbl
    constructor
    · intro hlt
      unfold pc_candidate
      rw [htbl]
      dsimp only
      rw [if_neg (show ¬pc ≥ addrAt tbl 0 by omega)]
    · intro hge
      rcases hwf m hm with hnone | ⟨tbl', htbl', hc, hs⟩
      · rw [hnone] at htbl; cases htbl
      · obtain rfl : tbl' = tbl := Option.some.inj (htbl'.symm.trans htbl)
        obtain ⟨h1, h2, h3⟩ :=
          msym_search_max tbl' m.minimal_symbol_count pc hs hc hge
        refine ⟨msym_search tbl' pc m.minimal_symbol_count 0
          (m.minimal_symbol_count - 1), h1, h2, h3, ?_⟩
        unfold pc_candidate
        rw [htbl']
        dsimp only
        rw [if_pos hge]
        cases msym_skip_abs tbl' (msym_search tbl' pc m.minimal_symbol_count 0
          (m.minimal_symbol_count - 1)) <;> rfl

theorem c4_witness :
    lookup_minimal_symbol_by_pc [table_objfile [mkRecorded rec_a_text]] 7
      = best_by_address ([table_objfile [mkRecorded rec_a_text]].filterMap
          (fun m => pc_candidate m 7)) :=
  (c4_lookup_by_pc [table_objfile [mkRecorded rec_a_text]] 7 (by
    intro m hm
    simp only [List.mem_singleton] at hm
    subst hm
    exact Or.inr ⟨_, rfl, by decide, by decide⟩)).1

/-! ## Claim C7 -/

/-- `msymbol[j]` inside the published part of a terminated table. -/
theorem symAt_append_lt (l l' : List MinimalSymbol) (j : Nat)
    (h : j < l.length) : symAt (l ++ l') j = l[j] := by
  unfold symAt
  rw [List.getD_append _ _ _ _ h, List.getD_eq_getElem _ _ h]

/-- Compaction is the identity on a table with pairwise-distinct adjacent
addresses. -/
theorem compact_of_chain_ne (l : List MinimalSymbol)
    (h : List.Chain' (fun a b => a.address ≠ b.address) l) :
    compact_minimal_symbols l = l := by
  cases l with
  | nil => rfl
  | cons c r =>
    exact compact_go_id c r (h.imp (fun a b hab hand => hab hand.1))

/-- The address a record carries after the install copy and the demangling
pass is the address it was recorded with. -/
theorem installed_record_address (leading_char : Char)
    (demangle : String → Option String) (r : RecordedArgs) :
    (symbol_init_demangled_name demangle
      (install_transfer leading_char (mkRecorded r))).address = r.address := by
  rw [symbol_init_demangled_name_address, install_transfer_address]
  rfl

/-- Likewise for the kind. -/
theorem installed_record_mstype (leading_char : Char)
    (demangle : String → Option String) (r : RecordedArgs) :
    (symbol_init_demangled_name demangle
      (install_transfer leading_char (mkRecorded r))).mstype = r.ms_type := by
  rw [symbol_init_demangled_name_mstype, install_transfer_mstype]
  rfl

/-- C7 (amended): record any sequence of argument tuples with
pairwise-distinct addresses (none of them dropped by the append filter and
none of kind Absolute), install into a fresh objfile, and look each address
up: the result is exactly that record as installed — the recorded fields,
with the language/demangled-name fields rewritten by the install copy
(language forced to Auto) and the demangling pass, and the leading symbol
character stripped from the name where applicable. -/
theorem c7_roundtrip (leading_char : Char)
    (demangle : String → Option String) (rs : List RecordedArgs)
    (hnodup : (rs.map (fun r => r.address)).Nodup)
    (habs : ∀ r ∈ rs, r.ms_type ≠ mst_abs)
    (hnd : ∀ r ∈ rs, ¬(r.ms_type = mst_file_text ∧
      msym_filter_drops leading_char r.name)) :
    ∀ r ∈ rs,
      lookup_minimal_symbol_by_pc
          [install_minimal_symbols
            { msymbols := none, minimal_symbol_count := 0,
              leading_char := leading_char }
            (record_list leading_char rs) demangle]
          r.address
        = some (symbol_init_demangled_name demangle
            (install_transfer leading_char (mkRecorded r))) := by
  intro r hr
  set objfile0 : Objfile :=
    { msymbols := none, minimal_symbol_count := 0,
      leading_char := leading_char } with hobj0
  set buf := record_list leading_char rs with hbuf
  -- the buffer publishes: its count is the number of records
  have hcount : buf.msym_count = rs.length := by
    rw [hbuf]
    unfold record_list
    rw [record_fold_count leading_char rs init_minimal_symbol_collection hnd]
    simp [init_minimal_symbol_collection]
  have hpos : buf.msym_count > 0 := by
    rw [hcount]
    cases rs with
    | nil => cases hr
    | cons a l => simp
  -- names for the pipeline stages
  set merged := install_merged objfile0 buf with hmerged
  set sorted := sort_minimal_symbols merged with hsorted
  set tblF := install_table objfile0 buf demangle with htblF
  set tbl := tblF ++ [null_symbol] with htbl
  -- the merged array is a permutation of the transferred records
  have hflat : List.Perm buf.msym_bunch.flatten (rs.map mkRecorded) := by
    rw [hbuf]
    unfold record_list
    have h := record_fold_flatten_perm leading_char rs
      init_minimal_symbol_collection hnd
    simpa using h
  have hmergedperm : List.Perm merged
      ((rs.map mkRecorded).map (install_transfer leading_char)) := by
    rw [hmerged]
    unfold install_merged existing_msymbols
    simpa using List.Perm.map (install_transfer objfile0.leading_char) hflat
  have hsortperm : List.Perm sorted
      ((rs.map mkRecorded).map (install_transfer leading_char)) :=
    (sort_minimal_symbols_perm merged).trans hmergedperm
  -- distinct addresses survive into the sorted array
  have haddr_img :
      ((rs.map mkRecorded).map (install_transfer leading_char)).map
          (fun s => s.address)
        = rs.map (fun r => r.address) := by
    rw [List.map_map, List.map_map]
    exact List.map_congr_left (fun a _ => by
      show (install_transfer leading_char (mkRecorded a)).address = a.address
      rw [install_transfer_address]
      rfl)
  have hnds : (sorted.map (fun s => s.address)).Nodup := by
    refine ((List.Perm.map (fun s => s.address) hsortperm).nodup_iff).mpr ?_
    rw [haddr_img]
    exact hnodup
  -- compaction changes nothing, so the published records are the sorted map
  have hcompact : compact_minimal_symbols sorted = sorted :=
    compact_of_chain_ne sorted
      ((List.pairwise_map.mp hnds).chain')
  have htblF_eq : tblF = sorted.map (symbol_init_demangled_name demangle) := by
    rw [htblF]
    unfold install_table
    rw [← hmerged, ← hsorted, hcompact]
  -- published count
  have hlen : tblF.length = rs.length := by
    rw [htblF_eq, List.length_map, hsortperm.length_eq, List.length_map,
      List.length_map]
  -- the published records still have pairwise-distinct addresses
  have hndtbl : (tblF.map (fun s => s.address)).Nodup := by
    rw [htblF_eq, List.map_map]
    have : ((fun s : MinimalSymbol => s.address) ∘
        symbol_init_demangled_name demangle) = (fun s => s.address) := by
      funext s
      exact symbol_init_demangled_name_address demangle s
    rw [this]
    exact hnds
  -- the record under scrutiny sits somewhere in the published table
  have hxmem : symbol_init_demangled_name demangle
      (install_transfer leading_char (mkRecorded r)) ∈ tblF := by
    rw [htblF_eq]
    refine List.mem_map_of_mem _ ?_
    refine (hsortperm.mem_iff).mpr ?_
    exact List.mem_map_of_mem _ (List.mem_map_of_mem _ hr)
  obtain ⟨k, hk, hkx⟩ := List.mem_iff_getElem.mp hxmem
  have hkc : k < tblF.length := hk
  -- table facts for the search
  have hsortN : AddrSortedN tbl tblF.length := by
    intro i hi
    rw [htbl]
    exact chain'_symAt (fun a b => a.address ≤ b.address) tblF [null_symbol]
      (by rw [htblF]; exact install_table_chain_le objfile0 buf demangle) i hi
  have haddrk : addrAt tbl k = r.address := by
    rw [htbl]
    unfold addrAt
    rw [symAt_append_lt tblF [null_symbol] k hkc, hkx,
      installed_record_address]
  have hc1 : 1 ≤ tblF.length := by omega
  have h0 : addrAt tbl 0 ≤ r.address := by
    rw [← haddrk]
    exact addrSortedN_mono tbl tblF.length hsortN 0 k (Nat.zero_le k) hkc
  obtain ⟨hs1, hs2, hs3⟩ :=
    msym_search_max tbl tblF.length r.address hsortN hc1 h0
  set hidx := msym_search tbl r.address tblF.length 0 (tblF.length - 1)
    with hhidx
  have heq : addrAt tbl hidx = r.address := by
    have h4 := hs3 k hkc (le_of_eq haddrk)
    rw [haddrk] at h4
    exact le_antisymm hs2 h4
  -- the slot the search found holds exactly the record under scrutiny
  have hmem2 : symAt tbl hidx ∈ tblF := by
    rw [htbl, symAt_append_lt tblF [null_symbol] hidx hs1]
    exact List.getElem_mem _
  have hxeq : symAt tbl hidx = symbol_init_demangled_name demangle
      (install_transfer leading_char (mkRecorded r)) := by
    refine List.inj_on_of_nodup_map hndtbl hmem2 hxmem ?_
    show (symAt tbl hidx).address = _
    have : (symAt tbl hidx).address = addrAt tbl hidx := rfl
    rw [this, heq, installed_record_address]
  -- the walk does not move: the record is not Absolute
  have hskip : msym_skip_abs tbl hidx = some hidx := by
    refine msym_skip_abs_of_not_abs tbl hidx ?_
    rw [hxeq, installed_record_mstype]
    exact habs r hr
  -- assemble the per-module candidate
  have hinstm := install_pos_msymbols objfile0 buf demangle hpos
  have hinstc := install_pos_count objfile0 buf demangle hpos
  have hcand : pc_candidate (install_minimal_symbols objfile0 buf demangle)
      r.address = some (symbol_init_demangled_name demangle
        (install_transfer leading_char (mkRecorded r))) := by
    unfold pc_candidate
    rw [hinstm]
    dsimp only
    rw [hinstc, ← htblF, ← htbl, if_pos h0, ← hhidx, hskip]
    dsimp only
    rw [hxeq]
  -- a single-module registry reduces to that candidate
  unfold lookup_minimal_symbol_by_pc
  rw [List.foldl_cons, List.foldl_nil, hcand]

/-- C7 (counterexample): a single record of kind Absolute at address 5.
The claim as stated promises that looking its address up returns exactly
that record; the backward walk of `lookup_minimal_symbol_by_pc` skips
Absolute entries, runs off the front of the table and the lookup returns
nothing. -/
theorem c7_counterexample :
    lookup_minimal_symbol_by_pc
        [install_minimal_symbols
          { msymbols := none, minimal_symbol_count := 0, leading_char := '%' }
          (record_list '%' [⟨"b", 5, mst_abs, none, 0⟩]) demangle_none] 5
      = none := by
  decide

theorem c7_witness :
    lookup_minimal_symbol_by_pc
        [install_minimal_symbols
          { msymbols := none, minimal_symbol_count := 0, leading_char := '%' }
          (record_list '%' [rec_a_text, rec_g_data]) demangle_none]
        rec_a_text.address
      = some (symbol_init_demangled_name demangle_none
          (install_transfer '%' (mkRecorded rec_a_text))) :=
  c7_roundtrip '%' demangle_none [rec_a_text, rec_g_data] (by decide)
    (by decide) (by decide) rec_a_text (by decide)
